import Mathlib

/-!
Verification of the `systems-ts` stock-and-flow simulator.

A shallow embedding of the core of the `systems-ts` library: the formula
lexer and evaluator (`src/lexer.ts`), the cycle-detection algorithm
(`src/algos.ts`), the model/simulation engine (`src/models.ts`) and the
parser (`src/parse.ts`), together with theorems about the properties the
specification claims of them.

JavaScript numbers (IEEE-754 doubles) are modelled as exact rationals
extended with the two infinities and NaN (`JNum`).  All numeric literals
appearing in the claims under verification are small integers or dyadic
decimals, on which double arithmetic is exact, so the rational model agrees
with the JavaScript semantics there; double rounding and negative zero are
not modelled (noted where relevant).  The JavaScript value `undefined`
(produced by reading a missing object key) is identified with NaN, which is
observationally equal for every operation the code performs on it
(arithmetic, comparisons, `Math.min`/`Math.max`, `isNaN`).
-/

deriving instance DecidableEq for Except

namespace Systems

/-! ## Kernel-computable rational arithmetic

The rational operations below are definitionally computable (they avoid the
irreducible field operations of `ℚ`), so that concrete runs of the embedded
code can be evaluated by `decide`.  Each is proved equal to the
corresponding mathematical operation. -/

/-- Rational negation, computably. -/
def qneg (a : ℚ) : ℚ := mkRat (-a.num) a.den

/-- Rational addition, computably. -/
def qadd (a b : ℚ) : ℚ := mkRat (a.num * b.den + b.num * a.den) (a.den * b.den)

/-- Rational multiplication, computably. -/
def qmul (a b : ℚ) : ℚ := mkRat (a.num * b.num) (a.den * b.den)

/-- Rational division, computably (used only at nonzero divisors). -/
def qdiv (a b : ℚ) : ℚ := Rat.divInt (a.num * b.den) (a.den * b.num)

/-- Rational floor, computably. -/
def qfloor (a : ℚ) : ℤ := a.num.ediv a.den

theorem qneg_eq (a : ℚ) : qneg a = -a := by
  rw [qneg, Rat.mkRat_eq_div]
  push_cast
  rw [neg_div, Rat.num_div_den]

theorem rat_mul_den (a : ℚ) : a * (a.den : ℚ) = a.num := by
  have ha : (a.den : ℚ) ≠ 0 := Nat.cast_ne_zero.mpr a.den_nz
  rw [eq_comm, ← div_eq_iff ha]
  exact Rat.num_div_den a

theorem qadd_eq (a b : ℚ) : qadd a b = a + b := by
  have ha : (a.den : ℚ) ≠ 0 := Nat.cast_ne_zero.mpr a.den_nz
  have hb : (b.den : ℚ) ≠ 0 := Nat.cast_ne_zero.mpr b.den_nz
  rw [qadd, Rat.mkRat_eq_div]
  push_cast
  rw [div_eq_iff (by positivity)]
  symm
  calc ((a + b) * ((a.den : ℚ) * b.den))
      = a * (a.den : ℚ) * b.den + b * (b.den : ℚ) * a.den := by ring
    _ = (a.num : ℚ) * b.den + b.num * a.den := by rw [rat_mul_den, rat_mul_den]

theorem qmul_eq (a b : ℚ) : qmul a b = a * b := by
  have ha : (a.den : ℚ) ≠ 0 := Nat.cast_ne_zero.mpr a.den_nz
  have hb : (b.den : ℚ) ≠ 0 := Nat.cast_ne_zero.mpr b.den_nz
  rw [qmul, Rat.mkRat_eq_div]
  push_cast
  rw [div_eq_iff (by positivity)]
  symm
  calc ((a * b) * ((a.den : ℚ) * b.den))
      = (a * (a.den : ℚ)) * (b * (b.den : ℚ)) := by ring
    _ = (a.num : ℚ) * b.num := by rw [rat_mul_den, rat_mul_den]

theorem qdiv_eq (a b : ℚ) (hb : b ≠ 0) : qdiv a b = a / b := by
  have ha : (a.den : ℚ) ≠ 0 := Nat.cast_ne_zero.mpr a.den_nz
  have hbn : (b.num : ℚ) ≠ 0 := by
    simpa using Rat.num_ne_zero.mpr hb
  rw [qdiv, Rat.divInt_eq_div]
  push_cast
  rw [div_eq_div_iff (mul_ne_zero ha hbn) hb]
  calc (a.num : ℚ) * b.den * b
      = (a * (a.den : ℚ)) * ((b.den : ℚ) * b) := by rw [rat_mul_den]; ring
    _ = a * ((a.den : ℚ) * (b * (b.den : ℚ)))  := by ring
    _ = a * ((a.den : ℚ) * b.num) := by rw [rat_mul_den]

theorem qfloor_eq (a : ℚ) : qfloor a = ⌊a⌋ := by
  rw [qfloor]
  conv_rhs => rw [← Rat.num_div_den a]
  rw [Rat.floor_intCast_div_natCast]
  rfl

/-! ## JavaScript numbers -/

/-- A JavaScript number: NaN, +Infinity, -Infinity, or a finite value
(modelled as an exact rational). -/
inductive JNum where
  | nan : JNum
  | inf : JNum
  | ninf : JNum
  | num (q : ℚ) : JNum
deriving DecidableEq, Repr, Inhabited

namespace JNum

/-- JavaScript unary minus. -/
def jneg : JNum → JNum
  | .nan => .nan
  | .inf => .ninf
  | .ninf => .inf
  | .num q => .num (qneg q)

/-- JavaScript `+` on numbers (IEEE-754 addition, exact in the rational part). -/
def jadd : JNum → JNum → JNum
  | .nan, _ => .nan
  | _, .nan => .nan
  | .inf, .ninf => .nan
  | .inf, _ => .inf
  | .ninf, .inf => .nan
  | .ninf, _ => .ninf
  | .num _, .inf => .inf
  | .num _, .ninf => .ninf
  | .num a, .num b => .num (qadd a b)

/-- JavaScript `-` on numbers; in IEEE-754, `a - b` equals `a + (-b)` exactly. -/
def jsub (a b : JNum) : JNum := jadd a (jneg b)

/-- JavaScript `*` on numbers. `Infinity * 0` is NaN. -/
def jmul : JNum → JNum → JNum
  | .nan, _ => .nan
  | _, .nan => .nan
  | .inf, .inf => .inf
  | .inf, .ninf => .ninf
  | .ninf, .inf => .ninf
  | .ninf, .ninf => .inf
  | .inf, .num q => if 0 < q then .inf else if q < 0 then .ninf else .nan
  | .num q, .inf => if 0 < q then .inf else if q < 0 then .ninf else .nan
  | .ninf, .num q => if 0 < q then .ninf else if q < 0 then .inf else .nan
  | .num q, .ninf => if 0 < q then .ninf else if q < 0 then .inf else .nan
  | .num a, .num b => .num (qmul a b)

/-- JavaScript `/` on numbers.  Division by (positive) zero yields a signed
infinity, `0 / 0` yields NaN, `Infinity / Infinity` yields NaN.  Negative
zero is identified with zero. -/
def jdiv : JNum → JNum → JNum
  | .nan, _ => .nan
  | _, .nan => .nan
  | .inf, .inf => .nan
  | .inf, .ninf => .nan
  | .ninf, .inf => .nan
  | .ninf, .ninf => .nan
  | .inf, .num q => if q < 0 then .ninf else .inf
  | .ninf, .num q => if q < 0 then .inf else .ninf
  | .num _, .inf => .num 0
  | .num _, .ninf => .num 0
  | .num a, .num b =>
      if b = 0 then (if a = 0 then .nan else if 0 < a then .inf else .ninf)
      else .num (qdiv a b)

/-- JavaScript `<`.  Any comparison involving NaN is false. -/
def jlt : JNum → JNum → Bool
  | .nan, _ => false
  | _, .nan => false
  | .ninf, .ninf => false
  | .ninf, _ => true
  | _, .ninf => false
  | .inf, _ => false
  | .num _, .inf => true
  | .num a, .num b => decide (a < b)

/-- JavaScript `>`. -/
def jgt (a b : JNum) : Bool := jlt b a

/-- JavaScript `>=`.  Any comparison involving NaN is false. -/
def jge : JNum → JNum → Bool
  | .nan, _ => false
  | _, .nan => false
  | a, b => !(jlt a b)

/-- JavaScript `<=`. -/
def jle (a b : JNum) : Bool := jge b a

/-- `Math.max` (binary): NaN-propagating maximum. -/
def jmax (a b : JNum) : JNum :=
  match a, b with
  | .nan, _ => .nan
  | _, .nan => .nan
  | a, b => if jlt a b then b else a

/-- `Math.min` (binary): NaN-propagating minimum. -/
def jmin (a b : JNum) : JNum :=
  match a, b with
  | .nan, _ => .nan
  | _, .nan => .nan
  | a, b => if jlt a b then a else b

/-- `Math.floor`.  `Math.floor` of NaN and of the infinities is the argument
itself. -/
def jfloor : JNum → JNum
  | .nan => .nan
  | .inf => .inf
  | .ninf => .ninf
  | .num q => .num (mkRat (qfloor q) 1)

/-- JavaScript `isNaN` on a number. -/
def jisNaN : JNum → Bool
  | .nan => true
  | _ => false

theorem jsub_num (a b : ℚ) : jsub (.num a) (.num b) = .num (a - b) := by
  simp [jsub, jadd, jneg, qneg_eq, qadd_eq, sub_eq_add_neg]

theorem jadd_num (a b : ℚ) : jadd (.num a) (.num b) = .num (a + b) := by
  simp [jadd, qadd_eq]

theorem jmul_num (a b : ℚ) : jmul (.num a) (.num b) = .num (a * b) := by
  simp [jmul, qmul_eq]

theorem jfloor_num (a : ℚ) : jfloor (.num a) = .num (⌊a⌋ : ℤ) := by
  simp [jfloor, qfloor_eq, Rat.mkRat_one]

end JNum

/-! ## Formula tokens (`src/lexer.ts`) -/

/-- A lexed formula token (`SimpleToken`/`FormulaToken` of `src/lexer.ts`).
The token kinds are `TOKEN_WHOLE`, `TOKEN_DECIMAL`, `TOKEN_INFINITY`,
`TOKEN_REFERENCE`, `TOKEN_OP` and nested `TOKEN_FORMULA` groups; the value
part of a leaf token is the raw source string. -/
inductive Tok where
  | whole (s : String)
  | decimal (s : String)
  | infinity (s : String)
  | reference (s : String)
  | op (s : String)
  | formula (ts : List Tok)

mutual

/-- Structural equality of tokens (`JSON.stringify` comparison of token
trees in the original coincides with structural equality). -/
def Tok.beq : Tok → Tok → Bool
  | .whole a, .whole b => a == b
  | .decimal a, .decimal b => a == b
  | .infinity a, .infinity b => a == b
  | .reference a, .reference b => a == b
  | .op a, .op b => a == b
  | .formula as, .formula bs => Tok.beqs as bs
  | _, _ => false

/-- Structural equality of token lists. -/
def Tok.beqs : List Tok → List Tok → Bool
  | [], [] => true
  | a :: as, b :: bs => Tok.beq a b && Tok.beqs as bs
  | _, _ => false

end

mutual

theorem Tok.eq_of_beq : ∀ {a b : Tok}, Tok.beq a b = true → a = b
  | .whole a, .whole b, h => by
      have hab : a = b := by simpa [Tok.beq] using h
      exact congrArg Tok.whole hab
  | .decimal a, .decimal b, h => by
      have hab : a = b := by simpa [Tok.beq] using h
      exact congrArg Tok.decimal hab
  | .infinity a, .infinity b, h => by
      have hab : a = b := by simpa [Tok.beq] using h
      exact congrArg Tok.infinity hab
  | .reference a, .reference b, h => by
      have hab : a = b := by simpa [Tok.beq] using h
      exact congrArg Tok.reference hab
  | .op a, .op b, h => by
      have hab : a = b := by simpa [Tok.beq] using h
      exact congrArg Tok.op hab
  | .formula as, .formula bs, h => by
      have hab : as = bs := Tok.eqs_of_beqs (by simpa [Tok.beq] using h)
      exact congrArg Tok.formula hab
  | .whole _, .decimal _, h => by simp [Tok.beq] at h
  | .whole _, .infinity _, h => by simp [Tok.beq] at h
  | .whole _, .reference _, h => by simp [Tok.beq] at h
  | .whole _, .op _, h => by simp [Tok.beq] at h
  | .whole _, .formula _, h => by simp [Tok.beq] at h
  | .decimal _, .whole _, h => by simp [Tok.beq] at h
  | .decimal _, .infinity _, h => by simp [Tok.beq] at h
  | .decimal _, .reference _, h => by simp [Tok.beq] at h
  | .decimal _, .op _, h => by simp [Tok.beq] at h
  | .decimal _, .formula _, h => by simp [Tok.beq] at h
  | .infinity _, .whole _, h => by simp [Tok.beq] at h
  | .infinity _, .decimal _, h => by simp [Tok.beq] at h
  | .infinity _, .reference _, h => by simp [Tok.beq] at h
  | .infinity _, .op _, h => by simp [Tok.beq] at h
  | .infinity _, .formula _, h => by simp [Tok.beq] at h
  | .reference _, .whole _, h => by simp [Tok.beq] at h
  | .reference _, .decimal _, h => by simp [Tok.beq] at h
  | .reference _, .infinity _, h => by simp [Tok.beq] at h
  | .reference _, .op _, h => by simp [Tok.beq] at h
  | .reference _, .formula _, h => by simp [Tok.beq] at h
  | .op _, .whole _, h => by simp [Tok.beq] at h
  | .op _, .decimal _, h => by simp [Tok.beq] at h
  | .op _, .infinity _, h => by simp [Tok.beq] at h
  | .op _, .reference _, h => by simp [Tok.beq] at h
  | .op _, .formula _, h => by simp [Tok.beq] at h
  | .formula _, .whole _, h => by simp [Tok.beq] at h
  | .formula _, .decimal _, h => by simp [Tok.beq] at h
  | .formula _, .infinity _, h => by simp [Tok.beq] at h
  | .formula _, .reference _, h => by simp [Tok.beq] at h
  | .formula _, .op _, h => by simp [Tok.beq] at h

theorem Tok.eqs_of_beqs : ∀ {as bs : List Tok}, Tok.beqs as bs = true → as = bs
  | [], [], _ => rfl
  | a :: as, b :: bs, h => by
      have hs : Tok.beq a b = true ∧ Tok.beqs as bs = true := by
        simpa [Tok.beqs, Bool.and_eq_true] using h
      rw [Tok.eq_of_beq hs.1, Tok.eqs_of_beqs hs.2]
  | [], _ :: _, h => by simp [Tok.beqs] at h
  | _ :: _, [], h => by simp [Tok.beqs] at h

end

mutual

theorem Tok.beq_refl : ∀ (a : Tok), Tok.beq a a = true
  | .whole a => by simp [Tok.beq]
  | .decimal a => by simp [Tok.beq]
  | .infinity a => by simp [Tok.beq]
  | .reference a => by simp [Tok.beq]
  | .op a => by simp [Tok.beq]
  | .formula as => by simpa [Tok.beq] using Tok.beqs_refl as

theorem Tok.beqs_refl : ∀ (as : List Tok), Tok.beqs as as = true
  | [] => rfl
  | a :: as => by simp [Tok.beqs, Tok.beq_refl a, Tok.beqs_refl as]

end

instance : DecidableEq Tok := fun a b =>
  if h : Tok.beq a b = true then isTrue (Tok.eq_of_beq h)
  else isFalse (fun hh => h (hh ▸ Tok.beq_refl a))

/-- The token-kind string of a token, mirroring the `TOKEN_*` string
constants of `src/lexer.ts` that the code compares kinds with. -/
def Tok.kind : Tok → String
  | .whole _ => "whole"
  | .decimal _ => "decimal"
  | .infinity _ => "inf"
  | .reference _ => "reference"
  | .op _ => "operation"
  | .formula _ => "formula"

mutual

/-- Debug rendering of a token (development aid only). -/
def Tok.toStr : Tok → String
  | .whole s => "W:" ++ s
  | .decimal s => "D:" ++ s
  | .infinity s => "I:" ++ s
  | .reference s => "R:" ++ s
  | .op s => "O:" ++ s
  | .formula ts => "F:[" ++ Tok.toStrs ts ++ "]"

/-- Debug rendering of a token list. -/
def Tok.toStrs : List Tok → String
  | [] => ""
  | t :: rest => Tok.toStr t ++ " " ++ Tok.toStrs rest

end

instance : Repr Tok := ⟨fun t _ => Tok.toStr t⟩

/-! ## String helpers

JavaScript string operations are modelled over `List Char` so that they are
definitionally computable.  `String.trim` in JavaScript strips Unicode
whitespace; only ASCII whitespace can occur in the inputs considered here. -/

/-- JavaScript `String.prototype.trim` (ASCII whitespace). -/
def jsTrim (s : String) : String :=
  ⟨((s.data.dropWhile Char.isWhitespace).reverse.dropWhile Char.isWhitespace).reverse⟩

/-- Split a character list on a separator, JavaScript `String.prototype.split`
semantics: splitting the empty string yields one empty group. -/
def splitOnChar (sep : Char) : List Char → List (List Char)
  | [] => [[]]
  | c :: rest =>
      match splitOnChar sep rest with
      | [] => [[]]
      | g :: gs => if c = sep then [] :: g :: gs else (c :: g) :: gs

/-- Test against the anchored regex `^-?[0-9]+$` (`PARAM_WHOLE`). -/
def wholeMatch (s : String) : Bool :=
  match s.data with
  | [] => false
  | '-' :: rest => !rest.isEmpty && rest.all Char.isDigit
  | l => l.all Char.isDigit

/-- Test against the anchored regex `^[0-9]+\.[0-9]+$` (`PARAM_DECIMAL`). -/
def decimalMatch (s : String) : Bool :=
  match splitOnChar '.' s.data with
  | [a, b] => !a.isEmpty && a.all Char.isDigit && !b.isEmpty && b.all Char.isDigit
  | _ => false

/-- Numeric value of a digit string. -/
def digitsVal (l : List Char) : ℕ := l.foldl (fun a c => 10 * a + (c.toNat - 48)) 0

/-- JavaScript `parseInt(s, 10)` on strings matching `PARAM_WHOLE`
(exact value; rounding of integers above 2^53 is not modelled). -/
def parseWhole (s : String) : ℚ :=
  match s.data with
  | '-' :: rest => mkRat (-(digitsVal rest : ℤ)) 1
  | l => mkRat (digitsVal l : ℤ) 1

/-- JavaScript `parseFloat` on strings matching `PARAM_DECIMAL`
(exact rational value; IEEE double rounding is not modelled). -/
def parseDecimal (s : String) : ℚ :=
  match splitOnChar '.' s.data with
  | [a, b] => qadd (mkRat (digitsVal a : ℤ) 1) (mkRat (digitsVal b : ℤ) ((10 : ℕ) ^ b.length))
  | _ => 0

/-- The head of a string, if any. -/
def headChar (s : String) : Option Char :=
  match s.data with
  | [] => none
  | c :: _ => some c

/-- The last character of a string, if any. -/
def lastChar (s : String) : Option Char :=
  match s.data.reverse with
  | [] => none
  | c :: _ => some c

/-- Drop the first character of a string (`slice(1)`). -/
def dropFirst (s : String) : String := ⟨s.data.drop 1⟩

/-- Drop the last character of a string (`slice(0, -1)`). -/
def dropLast (s : String) : String := ⟨s.data.dropLast⟩

/-- Drop the first `n` characters of a string (`slice(n)`). -/
def dropChars (s : String) (n : ℕ) : String := ⟨s.data.drop n⟩

/-- ASCII lower-casing (`String.prototype.toLowerCase` on ASCII input). -/
def asciiLower (s : String) : String :=
  ⟨s.data.map (fun c => if 'A' ≤ c ∧ c ≤ 'Z' then Char.ofNat (c.toNat + 32) else c)⟩

/-! ## Data model and errors -/

/-- A dependency graph over stock names (`Graph` of `src/algos.ts`):
a JavaScript object mapping node names to adjacency lists, modelled as an
association list in key-insertion order. -/
abbrev Graph := List (String × List String)

/-- `Formula` (`src/models.ts`): a lexed token sequence plus a default value
used when the sequence is empty.  `lexed` holds the token list of the
top-level `TOKEN_FORMULA` node. -/
structure Formula where
  lexed : List Tok
  default : JNum
deriving DecidableEq, Repr

/-- The three rate-rule variants (`Rate`, `Conversion`, `Leak`). -/
inductive RateKind where
  | rate
  | conversion
  | leak
deriving DecidableEq, Repr

/-- The error taxonomy of `src/errors.ts`.  Each constructor carries the
structured payload the corresponding class stores; message strings, and the
`line` token-array field used only for display, are omitted.
`invalidParameters`, `conflictingValues` and `unknownFlowType` extend
`DeferLineInfo`, whose `lineNumber` field (0 until annotated) is modelled.
`jsError` stands for a plain JavaScript `Error`/`TypeError` crash. -/
inductive Err where
  | illegalStockName (stockName : String) (allowed : String)
  | invalidParameters (txt : String) (lineNumber : ℕ)
  | illegalSourceStock (rateKind : RateKind) (sourceName : String)
  | invalidFormula (formula : Formula) (msg : String)
  | circularReferences (cycle : Graph) (graph : Graph)
  | conflictingValues (stockName : String) (first : Formula) (second : Formula) (lineNumber : ℕ)
  | unknownFlowType (flowType : String) (lineNumber : ℕ)
  | parseError (lineNumber : ℕ) (exception : Err)
  | jsError (msg : String)
deriving DecidableEq, Repr

/-- Source text of `LEGAL_STOCK_NAME`. -/
def legalStockNameSource : String := "^[a-zA-Z][a-zA-Z0-9_]*"

/-! ## The formula lexer (`src/lexer.ts`) -/

/-- `lexValue`: classify one accumulated literal as whole / decimal /
infinity / reference. -/
def lexValue (txt : String) : Tok :=
  let txt := jsTrim txt
  if txt = "inf" then .infinity txt
  else if wholeMatch txt then .whole txt
  else if decimalMatch txt then .decimal txt
  else .reference txt

/-- Is the character one of the four operators (`OPERATIONS`)? -/
def isOpChar (c : Char) : Bool := c = '/' || c = '+' || c = '-' || c = '*'

/-- Scanner state of `lexFormula`: the stack of enclosing groups, the
tokens of the current group, and the literal accumulator. -/
structure LexFState where
  groups : List (List Tok)
  tokens : List Tok
  acc : String
deriving Repr

/-- Flush the literal accumulator into the current token list, if nonempty. -/
def lexFlush (st : LexFState) : LexFState :=
  if st.acc = "" then st
  else { st with tokens := st.tokens ++ [lexValue st.acc], acc := "" }

/-- One character step of `lexFormula`. -/
def lexFormulaStep (st : LexFState) (c : Char) : Except Err LexFState :=
  if c = '(' then
    .ok { st with groups := st.tokens :: st.groups, tokens := [] }
  else if c = ')' then
    let st := lexFlush st
    match st.groups with
    | [] => .error (.jsError "pop from empty group stack")
    | prev :: rest => .ok { groups := rest, tokens := prev ++ [Tok.formula st.tokens], acc := "" }
  else if c = ' ' || c = '\n' then
    .ok (lexFlush st)
  else if isOpChar c then
    let st := lexFlush st
    .ok { st with tokens := st.tokens ++ [Tok.op (String.singleton c)] }
  else
    .ok { st with acc := st.acc.push c }

/-- `lexFormula`: tokenize one formula expression.  The input is trimmed and
a trailing newline appended; an unmatched `)` crashes (`groups.pop()!` on an
empty stack), and an unmatched `(` silently discards the enclosing group, as
in the original. -/
def lexFormula (txt : String) : Except Err (List Tok) := do
  let st ← ((jsTrim txt).data ++ ['\n']).foldlM lexFormulaStep ⟨[], [], ""⟩
  .ok st.tokens

/-! ## Formula validation, references and evaluation (`src/models.ts`) -/

/-- The live state of one simulation run (`StateMap`): a JavaScript object
mapping stock names to numbers, modelled as an association list in
key-insertion order. -/
abbrev StateMap := List (String × JNum)

/-- Look up a key in an association list (JavaScript objects cannot hold a
key twice, so key lists are duplicate-free). -/
def aGet? {α : Type} : List (String × α) → String → Option α
  | [], _ => none
  | p :: rest, k => if p.fst = k then some p.snd else aGet? rest k

/-- JavaScript object write: update the entry in place if the key exists,
otherwise append it. -/
def aSet {α : Type} : List (String × α) → String → α → List (String × α)
  | [], k, v => [(k, v)]
  | p :: rest, k, v => if p.fst = k then (k, v) :: rest else p :: aSet rest k v

/-- Read `state[k]`; a missing key gives `undefined`, modelled as NaN. -/
def jsGet (st : StateMap) (k : String) : JNum := (aGet? st k).getD .nan

/-- Read `graph[k]`; used only where the key is present (a missing key would
crash in JavaScript). -/
def gGet (g : Graph) (k : String) : List String := (aGet? g k).getD []

namespace Formula

/-- The walk of `Formula.validate` over the flat token sequence, tracking
the previous token kind, with the trailing-operator check at the end. -/
def validateLoop (f : Formula) : Option String → List Tok → Except Err Unit
  | prevKind, [] =>
      if prevKind = some "operation" then
        .error (.invalidFormula f "formula cannot end with an operation")
      else .ok ()
  | prevKind, t :: rest =>
      if t.kind = "operation" then
        match prevKind with
        | none => .error (.invalidFormula f "can't start with an operation")
        | some pk =>
            if pk = "operation" then
              .error (.invalidFormula f "operation can't be preceded by an operation")
            else validateLoop f (some t.kind) rest
      else
        if prevKind ≠ none ∧ prevKind ≠ some "operation" then
          .error (.invalidFormula f "must have an operation between values or references")
        else validateLoop f (some t.kind) rest

/-- `Formula.validate`: shape-check the (top-level) token sequence. -/
def validate (f : Formula) : Except Err Unit :=
  if f.lexed.isEmpty then
    .error (.invalidFormula f "formula is empty. must specify a number or a reference")
  else validateLoop f none f.lexed

/-- `Formula.references`: collect the values of top-level reference tokens,
in order, duplicates preserved.  (The loop does not recurse into nested
`TOKEN_FORMULA` groups.) -/
def references (f : Formula) : List String :=
  f.lexed.foldl (fun refs t => match t with | Tok.reference v => refs ++ [v] | _ => refs) []

end Formula

/-- Apply the pending operator to the accumulator and the next operand,
as in the body of `Formula.compute`'s loop: a null accumulator takes the
operand, an unrecognized/absent operator leaves the accumulator unchanged. -/
def applyAcc (acc : Option JNum) (op : Option String) (val : JNum) : JNum :=
  match acc with
  | none => val
  | some a =>
      if op = some "/" then JNum.jdiv a val
      else if op = some "*" then JNum.jmul a val
      else if op = some "+" then JNum.jadd a val
      else if op = some "-" then JNum.jsub a val
      else a

mutual

/-- Nesting weight of a token, used as evaluation fuel. -/
def Tok.weight : Tok → ℕ
  | .formula ts => Tok.weightList ts + 2
  | _ => 1

/-- Nesting weight of a token list. -/
def Tok.weightList : List Tok → ℕ
  | [] => 0
  | t :: rest => Tok.weight t + Tok.weightList rest + 1

end

mutual

/-- The per-leaf evaluation of `Formula.compute`: literal parsing,
environment lookup, and recursive evaluation of nested groups (which first
runs the `Formula` constructor, i.e. validation, on the group).  The fuel
argument only enforces termination; it is irrelevant above the token's
weight (`computeTok_fuel`). -/
def computeTok : ℕ → StateMap → Tok → Except Err JNum
  | 0, _, _ => .error (.jsError "fuel exhausted")
  | _ + 1, _, .op _ => .error (.jsError "This should be unreachable")
  | _ + 1, _, .whole s => .ok (.num (parseWhole s))
  | _ + 1, _, .infinity _ => .ok .inf
  | _ + 1, _, .decimal s => .ok (.num (parseDecimal s))
  | _ + 1, state, .reference s => .ok (jsGet state s)
  | n + 1, state, .formula ts => do
      let f : Formula := ⟨ts, .num 0⟩
      f.validate
      match ← computeLoop n state none none ts with
      | some a => .ok a
      | none => .ok f.default

/-- The accumulator loop of `Formula.compute` over the token sequence. -/
def computeLoop : ℕ → StateMap → Option JNum → Option String → List Tok → Except Err (Option JNum)
  | 0, _, _, _, _ => .error (.jsError "fuel exhausted")
  | _ + 1, _, acc, _, [] => .ok acc
  | n + 1, state, acc, _, Tok.op s :: rest => computeLoop n state acc (some s) rest
  | n + 1, state, acc, op, t :: rest => do
      let val ← computeTok n state t
      computeLoop n state (some (applyAcc acc op val)) op rest

end

/-- `Formula.compute`: evaluate the token sequence left to right against a
state; an empty sequence yields the formula's default value. -/
def Formula.compute (f : Formula) (state : StateMap) : Except Err JNum := do
  match ← computeLoop (Tok.weightList f.lexed + 1) state none none f.lexed with
  | some a => .ok a
  | none => .ok f.default

/-- The `Formula` constructor on a string definition: lex, set the default,
validate. -/
def Formula.ofString (s : String) (d : JNum) : Except Err Formula := do
  let ts ← lexFormula s
  let f : Formula := ⟨ts, d⟩
  f.validate
  .ok f

/-- The `Formula` constructor on an already-lexed `TOKEN_FORMULA` definition
(default value 0), as used by the parser and by nested-group evaluation. -/
def Formula.ofTokens (ts : List Tok) : Except Err Formula := do
  let f : Formula := ⟨ts, .num 0⟩
  f.validate
  .ok f

/-! ## Stocks, rates, flows (`src/models.ts`) -/

/-- `DEFAULT_MAXIMUM` is `Number.POSITIVE_INFINITY`. -/
def DEFAULT_MAXIMUM : JNum := .inf

/-- The default initial formula `new Formula(0)`: `lexFormula("0")`. -/
def formulaZero : Formula := ⟨[.whole "0"], .num 0⟩

/-- The default maximum formula `new Formula(DEFAULT_MAXIMUM)`:
`lexFormula("inf")`. -/
def formulaInf : Formula := ⟨[.infinity "inf"], .num 0⟩

/-- `Stock`: a named container with initial and maximum formulas and a
display flag (`show` in the source; renamed, `show` is a Lean keyword). -/
structure Stock where
  name : String
  initial : Formula
  maximum : Formula
  showFlag : Bool
deriving DecidableEq, Repr

/-- A rate rule: one of the three `RateBase` subclasses together with its
formula.  (The `RateBase` constructor builds `new Formula(formula)`, i.e.
validates; `RateSpec.make` models that.) -/
structure RateSpec where
  kind : RateKind
  formula : Formula
deriving DecidableEq, Repr

/-- The `RateBase` subclass constructors (`new Rate(...)` etc.): build and
validate the formula. -/
def RateSpec.make (kind : RateKind) (ts : List Tok) : Except Err RateSpec := do
  let f ← Formula.ofTokens ts
  .ok ⟨kind, f⟩

/-- `calculate(state, src, dest, capacity)` of the three rate variants,
returning `(removed from source, added to destination)`. -/
def RateSpec.calculate (r : RateSpec) (state : StateMap) (src dest capacity : JNum) :
    Except Err (JNum × JNum) := do
  let evaluated ← r.formula.compute state
  match r.kind with
  | .rate =>
      if JNum.jgt src (.num 0) then
        let change := if JNum.jge (JNum.jsub src evaluated) (.num 0) then evaluated else src
        let change := JNum.jmin capacity (JNum.jmax (.num 0) change)
        .ok (change, change)
      else
        .ok (.num 0, .num 0)
  | .conversion =>
      let maxSrcChange :=
        if dest = JNum.inf ∨ capacity = JNum.inf then src
        else JNum.jmax (.num 0) (JNum.jfloor (JNum.jdiv (JNum.jsub capacity dest) evaluated))
      let change := JNum.jfloor (JNum.jmul maxSrcChange evaluated)
      if change = JNum.num 0 then .ok (.num 0, .num 0)
      else .ok (maxSrcChange, change)
  | .leak =>
      let change := JNum.jfloor (JNum.jmul src evaluated)
      let change := if !(JNum.jisNaN capacity) then JNum.jmin capacity change else change
      .ok (change, change)

/-- `validateSource`: `Conversion` and `Leak` reject a source stock whose
initial value computes (on the empty state) to positive infinity. -/
def RateSpec.validateSource (r : RateSpec) (sourceStock : Stock) : Except Err Unit :=
  match r.kind with
  | .rate => .ok ()
  | _ => do
      let v ← sourceStock.initial.compute []
      if v = JNum.inf then .error (.illegalSourceStock r.kind sourceStock.name)
      else .ok ()

/-- `Flow`: a directed transfer between two stocks.  JavaScript holds the
`Stock` objects by reference; stocks live in `Model.stocks`, so a flow is
modelled as a pair of indices into that list (the only post-construction
stock mutation, `buildStock`'s fill-in of a still-default field, is then
visible through flows exactly as in the original). -/
structure Flow where
  source : ℕ
  destination : ℕ
  rate : RateSpec
deriving DecidableEq, Repr

/-- `Model`: stocks and flows in insertion order plus the cached
initialization order. -/
structure Model where
  name : String
  stocks : List Stock
  flows : List Flow
  initialPath : List String
deriving DecidableEq, Repr

namespace Model

/-- The stock a flow endpoint refers to.  All flows constructed through
`Model.flow` index into `stocks`; the fallback is never reached. -/
def stockAt (m : Model) (i : ℕ) : Stock :=
  m.stocks.getD i ⟨"", formulaZero, formulaInf, true⟩

/-- `getStock`: the first stock with the given name, with its index. -/
def getStock (m : Model) (name : String) : Option (ℕ × Stock) :=
  match m.stocks.findIdx? (fun s => s.name == name) with
  | some i => some (i, m.stockAt i)
  | none => none

/-- `infiniteStock`: push a stock fixed at positive infinity, hidden from
display. -/
def infiniteStock (m : Model) (name : String) : Model × ℕ :=
  ({ m with stocks := m.stocks ++ [⟨name, formulaInf, formulaInf, false⟩] }, m.stocks.length)

/-- `stock`: push a stock with the given formulas. -/
def stock (m : Model) (name : String) (initial maximum : Formula) (showFlag : Bool) :
    Model × ℕ :=
  ({ m with stocks := m.stocks ++ [⟨name, initial, maximum, showFlag⟩] }, m.stocks.length)

/-- `flow`: construct a `Flow` (which validates the rate rule against the
source stock) and push it. -/
def flow (m : Model) (source destination : ℕ) (rate : RateSpec) : Except Err Model := do
  rate.validateSource (m.stockAt source)
  .ok { m with flows := m.flows ++ [⟨source, destination, rate⟩] }

end Model

/-- `Flow.change`: destination capacity from the destination's maximum
formula, adjusted by the current destination value unless that value is
infinite, then the rate rule's `calculate`. -/
def Flow.change (m : Model) (f : Flow) (state : StateMap) (sourceState destState : JNum) :
    Except Err (JNum × JNum) := do
  let capacity ← (m.stockAt f.destination).maximum.compute state
  let adjustedCapacity := if destState ≠ JNum.inf then JNum.jsub capacity destState else capacity
  f.rate.calculate state sourceState destState adjustedCapacity

/-! ## State construction and round advance (`src/models.ts`) -/

namespace State

/-- The `State` constructor: initialize stocks not on the cached
initialization path first (in model order), then the stocks on the path (in
path order), each by computing its initial formula against the state built
so far. -/
def ofModel (m : Model) : Except Err StateMap := do
  let st ← m.stocks.foldlM
    (fun (st : StateMap) stock => do
      if m.initialPath.contains stock.name then .ok st
      else do
        let v ← stock.initial.compute st
        .ok (aSet st stock.name v))
    ([] : StateMap)
  m.initialPath.foldlM
    (fun (st : StateMap) name =>
      match m.getStock name with
      | some (_, stock) => do
          let v ← stock.initial.compute st
          .ok (aSet st stock.name v)
      | none => .ok st)
    st

/-- One flow step inside `State.advance`: read the current source and
destination values, compute the change, apply the removal to the source
immediately and defer the addition. -/
def advanceStep (m : Model) (acc : StateMap × List (String × JNum)) (flow : Flow) :
    Except Err (StateMap × List (String × JNum)) := do
  let sourceState := jsGet acc.fst (m.stockAt flow.source).name
  let destinationState := jsGet acc.fst (m.stockAt flow.destination).name
  let change ← flow.change m acc.fst sourceState destinationState
  let st := aSet acc.fst (m.stockAt flow.source).name
    (JNum.jsub (jsGet acc.fst (m.stockAt flow.source).name) change.fst)
  .ok (st, acc.snd ++ [((m.stockAt flow.destination).name, change.snd)])

/-- Commit one deferred addition. -/
def commitStep (st : StateMap) (p : String × JNum) : StateMap :=
  aSet st p.fst (JNum.jadd (jsGet st p.fst) p.snd)

/-- `State.advance`: process the flows in reverse insertion order, removals
applied immediately and additions deferred; then commit the deferred
additions in the order they were collected. -/
def advance (m : Model) (st : StateMap) : Except Err StateMap := do
  let (st, deferred) ← m.flows.reverse.foldlM (advanceStep m) (st, ([] : List (String × JNum)))
  .ok (deferred.foldl commitStep st)

/-- `State.snapshot`: an independent copy of the state map (the identity
under value semantics). -/
def snapshot (st : StateMap) : StateMap := st

end State

/-! ## Cycle detection (`src/algos.ts`) -/

/-- The result record of `findCycles`. -/
structure CycleResult where
  hasCycle : Bool
  cycles : Graph
  initialPath : List String
deriving DecidableEq, Repr

/-- Internal state of `findCycles`' while loop. -/
structure FCState where
  cycles : Graph
  inG : Graph
  deps : List String
  changed : Bool
deriving DecidableEq, Repr

/-- One full scan over the nodes (`for (const node in cycles)`): a node with
no remaining inward edges but some outward edges has each of its outward
edges severed (removing the first matching inward entry of the target, as
`indexOf`/`splice` do), its own edge list emptied, and is appended to the
dependency list. -/
def findCyclesStep (st : FCState) (node : String) : FCState :=
  if (gGet st.inG node).isEmpty && !(gGet st.cycles node).isEmpty then
    { cycles := aSet st.cycles node [],
      inG := (gGet st.cycles node).foldl
        (fun g edge => aSet g edge ((gGet g edge).erase node)) st.inG,
      deps := st.deps ++ [node],
      changed := true }
  else st

def findCyclesPass (keys : List String) (st : FCState) : FCState :=
  keys.foldl findCyclesStep st

/-- Number of nodes that still have outward edges; each productive scan
strictly decreases it, which bounds the while loop. -/
def nonemptyCount (g : Graph) : ℕ := (g.filter (fun p => !p.snd.isEmpty)).length

/-- The `while (changed)` loop of `findCycles`, with fuel.
`findCycles_unfold` below shows the fuel used by `findCycles` is always
sufficient, so this is exactly the unbounded loop. -/
def findCyclesGo (keys : List String) : ℕ → FCState → FCState
  | 0, st => st
  | n + 1, st =>
      if (findCyclesPass keys { st with changed := false }).changed
      then findCyclesGo keys n (findCyclesPass keys { st with changed := false })
      else findCyclesPass keys { st with changed := false }

/-- `findCycles(inGraph, outGraph)`.  The `cycles` working map is a copy of
`outGraph` (the identity under value semantics).  JavaScript mutates the
caller's `inGraph` in place; the second component of the result is the final
contents of that argument, while `outGraph` itself is never written. -/
def findCycles (inGraph outGraph : Graph) : CycleResult × Graph :=
  let keys := outGraph.map Prod.fst
  let st := findCyclesGo keys (nonemptyCount outGraph + 1) ⟨outGraph, inGraph, [], true⟩
  ({ hasCycle := st.cycles.any (fun p => !p.snd.isEmpty),
     cycles := st.cycles,
     initialPath := st.deps.reverse }, st.inG)

/-! ## Model validation and simulation runs (`src/models.ts`) -/

namespace Model

/-- `validateExistingStocks`: every reference in any stock's maximum or
initial formula and in any flow's rate formula must name an existing stock. -/
def validateExistingStocks (m : Model) : Except Err Unit :=
  let stockNames := m.stocks.map (fun s => s.name)
  let refs : List (Formula × String) :=
    (m.stocks.foldl
      (fun acc stock =>
        acc ++ (stock.maximum.references).map (fun r => (stock.maximum, r))
            ++ (stock.initial.references).map (fun r => (stock.initial, r)))
      [])
    ++ (m.flows.foldl
      (fun acc flow =>
        acc ++ (flow.rate.formula.references).map (fun r => (flow.rate.formula, r)))
      [])
  refs.foldlM
    (fun _ p =>
      if stockNames.contains p.snd then .ok ()
      else .error (.invalidFormula p.fst ("reference to non-existent stock '" ++ p.snd ++ "'")))
    ()

/-- `validateInitialCycles`: build the inward/outward reference graphs of
the stocks' initial formulas (all stocks keyed first, then each reference
appended), run `findCycles`, fail on a cycle and otherwise cache the
initialization order.  (When a reference names a missing stock, JavaScript
would crash on `inwardRefs[ref].push`; `validateExistingStocks` runs first
and rules that out, and the embedding silently creates the key.) -/
def validateInitialCycles (m : Model) : Except Err Model :=
  let inwardRefs := m.stocks.foldl (fun g s => aSet g s.name ([] : List String)) ([] : Graph)
  let outwardRefs := m.stocks.foldl (fun g s => aSet g s.name ([] : List String)) ([] : Graph)
  let graphs := m.stocks.foldl
    (fun (p : Graph × Graph) stock =>
      (stock.initial.references).foldl
        (fun (p : Graph × Graph) ref =>
          (aSet p.fst ref (gGet p.fst ref ++ [stock.name]),
           aSet p.snd stock.name (gGet p.snd stock.name ++ [ref])))
        p)
    (inwardRefs, outwardRefs)
  let res := (findCycles graphs.fst graphs.snd).fst
  if res.hasCycle then .error (.circularReferences res.cycles graphs.snd)
  else .ok { m with initialPath := res.initialPath }

/-- `validate`: existing-stock check, then cycle check. -/
def validate (m : Model) : Except Err Model := do
  m.validateExistingStocks
  m.validateInitialCycles

/-- `run(rounds)`: validate, build the initial state, snapshot it, then
advance and snapshot `rounds` times. -/
def run (m : Model) (rounds : ℕ) : Except Err (List StateMap) := do
  let m ← m.validate
  let s ← State.ofModel m
  let go ← (List.range rounds).foldlM
    (fun (acc : List StateMap × StateMap) _ => do
      let s ← State.advance m acc.snd
      .ok (acc.fst ++ [State.snapshot s], s))
    ([State.snapshot s], s)
  .ok go.fst

end Model

/-! ## The line scanner (`src/lexer.ts`) -/

/-- A token occurring in a scanned line: stock / infinite-stock / flow
declarations with their parameter lists (each parameter a lexed formula
token list), the flow markers, and comments. -/
inductive LineTok where
  | stock (name : String) (params : List (List Tok))
  | stockInfinite (name : String) (params : List (List Tok))
  | flow (classStr : String) (params : List (List Tok))
  | flowDirection
  | flowDelimiter
  | comment (txt : String)
deriving DecidableEq, Repr

/-- `lexParameters`: an empty string yields no parameters; otherwise the
text must be wrapped in parentheses and is split on commas, each piece lexed
as a formula. -/
def lexParameters (txt : String) : Except Err (List (List Tok)) :=
  if txt = "" then .ok []
  else if headChar txt = some '(' ∧ lastChar txt = some ')' then
    (splitOnChar ',' (dropLast (dropFirst txt)).data).mapM (fun p => lexFormula ⟨p⟩)
  else .error (.invalidParameters txt 0)

/-- The prefix match of `LEGAL_STOCK_NAME` (`^[a-zA-Z][a-zA-Z0-9_]*`). -/
def legalNamePrefix (s : String) : Option String :=
  match s.data with
  | [] => none
  | c :: rest =>
      if c.isAlpha then
        some ⟨c :: rest.takeWhile (fun d => d.isAlpha || d.isDigit || d = '_')⟩
      else none

/-- `lexCaller`: a legal identifier optionally followed by a parenthesized
parameter list. -/
def lexCaller (txt : String) : Except Err (String × List (List Tok)) := do
  let txt := jsTrim txt
  match legalNamePrefix txt with
  | none => .error (.illegalStockName txt legalStockNameSource)
  | some name =>
      let rest := dropChars txt name.length
      if rest ≠ "" ∧ ¬(headChar rest = some '(' ∧ lastChar rest = some ')') then
        .error (.illegalStockName txt legalStockNameSource)
      else do
        let params ← lexParameters rest
        .ok (name, params)

/-- `lexStock`: `[Name]` is an infinite stock, otherwise a caller. -/
def lexStock (txt : String) : Except Err LineTok := do
  let txt := jsTrim txt
  if headChar txt = some '[' ∧ lastChar txt = some ']' then
    .ok (.stockInfinite (dropLast (dropFirst txt)) [])
  else do
    let (name, params) ← lexCaller txt
    .ok (.stock name params)

/-- `lexFlow`: a recognized `Name(...)` shape is a labeled flow call,
anything else becomes a single implicit parameter of an unlabeled flow. -/
def lexFlow (txt : String) : Except Err LineTok := do
  let txt := jsTrim txt
  let labeled : Bool :=
    match legalNamePrefix txt with
    | some name =>
        decide (headChar (dropChars txt name.length) = some '(' ∧ lastChar txt = some ')')
    | none => false
  if labeled then do
    let (name, params) ← lexCaller txt
    .ok (.flow name params)
  else do
    let params ← lexParameters ("(" ++ txt ++ ")")
    .ok (.flow "" params)

/-- The scanner mode: expecting a stock token, expecting a flow token, or
inside a comment. -/
inductive LexMode where
  | stock
  | flow
  | comment
deriving DecidableEq, Repr

/-- The scanner state of `lex`: finished lines (with their 1-based numbers),
the current line's tokens, the character buffer (which always starts with
the transparent leading space), the mode, and the line counter. -/
structure LexState where
  tokens : List (ℕ × List LineTok)
  line : List LineTok
  charBuff : String
  parsing : LexMode
  lineNum : ℕ
deriving DecidableEq, Repr

/-- The shared tail of the scanner's character loop: newline bookkeeping
(fatal leftover-buffer check, line emission), skipping of whitespace and
flow-direction characters outside comments, and buffer accumulation. -/
def lexStepBottom (st : LexState) (c : Char) : Except Err LexState :=
  if c = '\n' then
    let lineNum := st.lineNum + 1
    if st.charBuff ≠ " " then .error (.jsError ("unused char_buff: " ++ st.charBuff))
    else
      .ok { tokens := st.tokens ++ (if st.line.isEmpty then [] else [(lineNum, st.line)]),
            line := [], charBuff := " ", parsing := .stock, lineNum := lineNum }
  else if (c = ' ' ∨ c = '>') ∧ st.parsing ≠ .comment then .ok st
  else .ok { st with charBuff := st.charBuff.push c }

/-- One character step of `lex`. -/
def lexStep (st : LexState) (c : Char) : Except Err LexState := do
  if c = '#' ∧ st.line.isEmpty ∧ st.charBuff = " " then
    lexStepBottom { st with parsing := .comment } c
  else
    match st.parsing with
    | .comment =>
        let st :=
          if c = '\n' then
            { st with line := st.line ++ [LineTok.comment (dropFirst st.charBuff)],
                      charBuff := " " }
          else st
        lexStepBottom st c
    | .stock =>
        if c = '#' then do
          let st ←
            if st.charBuff ≠ " " then do
              let t ← lexStock st.charBuff
              pure { st with line := st.line ++ [t] }
            else pure st
          pure { st with charBuff := " ", parsing := .comment }
        else if c = '>' then do
          let t ← lexStock st.charBuff
          pure { st with line := st.line ++ [t, .flowDirection], charBuff := " ",
                         parsing := .stock }
        else if c = '@' then do
          let t ← lexStock st.charBuff
          pure { st with line := st.line ++ [t, .flowDelimiter], charBuff := " ",
                         parsing := .flow }
        else if c = '\n' then do
          let st ←
            if st.charBuff ≠ " " then do
              let t ← lexStock st.charBuff
              pure { st with line := st.line ++ [t] }
            else pure st
          lexStepBottom { st with charBuff := " " } c
        else lexStepBottom st c
    | .flow =>
        if c = '#' then do
          let st ←
            if st.charBuff ≠ " " then do
              let t ← lexFlow st.charBuff
              pure { st with line := st.line ++ [t] }
            else pure st
          pure { st with charBuff := " ", parsing := .comment }
        else if c = '\n' then do
          let st ←
            if st.charBuff ≠ " " then do
              let t ← lexFlow st.charBuff
              pure { st with line := st.line ++ [t] }
            else pure st
          lexStepBottom { st with charBuff := " " } c
        else lexStepBottom st c

/-- `lex`: scan the whole input.  The original prepends a space (the initial
buffer content) and appends a newline. -/
def lex (txt : String) : Except Err (List (ℕ × List LineTok)) := do
  let st ← (txt ++ "\n").data.foldlM lexStep ⟨[], [], " ", .stock, 0⟩
  .ok st.tokens

/-! ## The parser (`src/parse.ts`) -/

/-- `buildStock`: build or re-open a stock from a lexed stock token.
Re-declaring an existing stock may only fill in an initial or maximum value
whose current value is still the default; a differing non-default value is a
conflict.  (`JSON.stringify` comparison of lexed trees is structural
equality.)  Returns the (possibly updated) model and the stock's index. -/
def buildStock (m : Model) (t : LineTok) : Except Err (Model × ℕ) := do
  match t with
  | .stockInfinite name _ => .ok (m.infiniteStock name)
  | .stock name params => do
      let defaultInitial := formulaZero
      let defaultMaximum := formulaInf
      let initial ←
        match params with
        | p0 :: _ => Formula.ofTokens p0
        | [] => pure defaultInitial
      let maximum ←
        match params with
        | _ :: p1 :: _ => Formula.ofTokens p1
        | _ => pure defaultMaximum
      match m.getStock name with
      | some (idx, ex) => do
          let ex ←
            if initial.lexed ≠ defaultInitial.lexed then
              if ex.initial.lexed ≠ initial.lexed ∧ ex.initial.lexed = defaultInitial.lexed then
                pure { ex with initial := initial }
              else .error (.conflictingValues name ex.initial initial 0)
            else pure ex
          let ex ←
            if maximum.lexed ≠ defaultMaximum.lexed then
              if ex.maximum.lexed ≠ maximum.lexed ∧ ex.maximum.lexed = defaultMaximum.lexed then
                pure { ex with maximum := maximum }
              else .error (.conflictingValues name ex.maximum maximum 0)
            else pure ex
          .ok ({ m with stocks := m.stocks.set idx ex }, idx)
      | none => .ok (m.stock name initial maximum true)
  | _ => .error (.jsError "buildStock: not a stock token")

/-- `buildFlow`: resolve the rate class from the label (case-insensitive),
auto-detecting an unlabeled single decimal parameter as a `Conversion` and
anything else unlabeled as a `Rate`; construct the rate (validating its
formula) and the flow (validating its source). -/
def buildFlow (m : Model) (src dest : ℕ) (classStr : String) (params : List (List Tok)) :
    Except Err Model := do
  let lower := asciiLower classStr
  let kind ←
    if lower = "leak" then pure RateKind.leak
    else if lower = "conversion" then pure RateKind.conversion
    else if lower = "rate" then pure RateKind.rate
    else if classStr = "" then
      pure (match params with
        | [Tok.decimal _] :: _ => RateKind.conversion
        | _ => RateKind.rate)
    else .error (.unknownFlowType classStr 0)
  let rate ← RateSpec.make kind (params.headD [])
  m.flow src dest rate

/-- The per-line token walk of `parse`: the first two stock tokens become
source and destination, a flow token builds a flow once both are present. -/
def parseLine (m : Model) (line : List LineTok) : Except Err Model := do
  let step ← line.foldlM
    (fun (acc : Model × Option ℕ × Option ℕ) t => do
      let (m, first, second) := acc
      match t with
      | .stock .. | .stockInfinite .. =>
          (match first with
           | none => do
               let (m, i) ← buildStock m t
               pure (m, some i, second)
           | some _ =>
               match second with
               | none => do
                   let (m, i) ← buildStock m t
                   pure (m, first, some i)
               | some _ => pure acc)
      | .flow classStr params =>
          (match first, second with
           | some s, some d => do
               let m ← buildFlow m s d classStr params
               pure (m, first, second)
           | _, _ => pure acc)
      | _ => pure acc)
    (m, none, none)
  .ok step.fst

/-- The error annotation of `parse`'s per-line `catch`: errors of the
`DeferLineInfo` family get the line number set in place; any other error is
wrapped in a `ParseError` carrying the line number. -/
def wrapLineErr (n : ℕ) (e : Err) : Err :=
  match e with
  | .invalidParameters txt _ => .invalidParameters txt n
  | .conflictingValues s f1 f2 _ => .conflictingValues s f1 f2 n
  | .unknownFlowType s _ => .unknownFlowType s n
  | e => .parseError n e

/-- `parse`: lex the input (lexer errors propagate unwrapped), then process
each line, annotating or wrapping errors with the line number. -/
def parse (txt : String) : Except Err Model := do
  let lines ← lex txt
  lines.foldlM
    (fun m line =>
      match parseLine m line.snd with
      | .ok m => .ok m
      | .error e => .error (wrapLineErr line.fst e))
    (Model.mk "Parsed" [] [] [])

/-! ## Specification-side auxiliary definitions

These definitions follow the specification's wording (not the source) and
are compared against the embedded code in refinement claims. -/

mutual

/-- All reference-kind leaves of one token, including those inside nested
parenthesized groups, in appearance order (the specification's description
of `references`). -/
def deepRefsTok : Tok → List String
  | .reference s => [s]
  | .formula ts => deepRefsList ts
  | _ => []

/-- All reference-kind leaves of a token tree, in appearance order. -/
def deepRefsList : List Tok → List String
  | [] => []
  | t :: rest => deepRefsTok t ++ deepRefsList rest

end

/-- The reference-kind leaves at the top level only of a token sequence, in
appearance order, duplicates preserved. -/
def topRefs (ts : List Tok) : List String :=
  ts.filterMap (fun t => match t with | Tok.reference s => some s | _ => none)

/-- Decompose a token sequence into leading operand and (operator, operand)
pairs, exactly when it alternates operand/operator starting and ending with
an operand (the shape `validate` accepts). -/
def splitAltPairs : List Tok → Option (List (String × Tok))
  | [] => some []
  | .op s :: t :: rest =>
      if t.kind = "operation" then none
      else (splitAltPairs rest).map (fun ps => (s, t) :: ps)
  | _ => none

/-- Decompose an alternating token sequence into its first operand and the
following (operator, operand) pairs. -/
def splitAlt : List Tok → Option (Tok × List (String × Tok))
  | [] => none
  | t :: rest =>
      if t.kind = "operation" then none
      else (splitAltPairs rest).map (fun ps => (t, ps))

/-- Evaluate one leaf with exactly enough fuel. -/
def computeTok1 (env : StateMap) (t : Tok) : Except Err JNum :=
  computeTok (Tok.weight t) env t

/-- One step of the specification's left-to-right fold: evaluate the next
operand and apply the pending operator to the running accumulator. -/
def ltrStep (env : StateMap) (a : JNum) (p : String × Tok) : Except Err JNum := do
  let v ← computeTok1 env p.snd
  pure (applyAcc (some a) (some p.fst) v)

/-- The specification's left-to-right fold: evaluate the first operand, then
apply each pending operator to the running accumulator and the next operand
in sequence order (no precedence). -/
def computeLTR (env : StateMap) (t0 : Tok) (ps : List (String × Tok)) : Except Err JNum := do
  let v0 ← computeTok1 env t0
  ps.foldlM (ltrStep env) v0

/-- The token sequence denoted by a leading operand and (operator, operand)
pairs. -/
def flatPairs (ps : List (String × Tok)) : List Tok :=
  ps.foldr (fun p acc => .op p.fst :: p.snd :: acc) []

/-- Every node name mentioned anywhere in an edge map pair, as keys or as
edge targets. -/
def graphNodes (inG outG : Graph) : List String :=
  inG.map Prod.fst ++ outG.map Prod.fst
    ++ (inG.map Prod.snd).flatten ++ (outG.map Prod.snd).flatten

/-- The inward map agrees with the outward map: `y`'s inward list mentions
`x` exactly as often as `x`'s outward list mentions `y`.  This is exactly
the shape `Model.validateInitialCycles` builds (each outward push is
mirrored by one inward push). -/
def consistentB (inG outG : Graph) : Bool :=
  (graphNodes inG outG).all (fun x =>
    (graphNodes inG outG).all (fun y =>
      (gGet inG y).count x == (gGet outG x).count y))

/-- The edge relation of the outward map: an edge from `a` to each entry of
its outward list. -/
def outEdge (outG : Graph) (a b : String) : Prop := b ∈ gGet outG a

/-- Walk inward-edge lists backwards from a node: each step moves to the
first remaining inward neighbour. -/
def predChain (g : Graph) (x0 : String) : ℕ → String
  | 0 => x0
  | n + 1 => (gGet g (predChain g x0 n)).headD ""

/-- The loop invariant of `findCycles` relative to the original outward map:
the working `cycles` map keeps the outward keys; a peeled node's entry is
emptied and an unpeeled node's entry is untouched; the inward lists hold
exactly the outward edges of the unpeeled nodes; the dependency list lists a
node only after every node pointing at it; and no node is peeled twice. -/
def FCInv (outG : Graph) (st : FCState) : Prop :=
  st.cycles.map Prod.fst = outG.map Prod.fst
  ∧ (∀ x, gGet st.cycles x = if x ∈ st.deps then [] else gGet outG x)
  ∧ (∀ x y, (gGet st.inG y).count x = if x ∈ st.deps then 0 else (gGet outG x).count y)
  ∧ (∀ x y, y ∈ gGet outG x → y ∈ st.deps → ∃ l1 l2, st.deps = l1 ++ y :: l2 ∧ x ∈ l1)
  ∧ st.deps.Nodup

/-- The fan-in model of claim C8: stocks `a(10)`, `b(10)`, `c(0)` with
unbounded maxima, and Rate flows of 5 (`a > c`) and 3 (`b > c`). -/
def fanInModel : Except Err Model := do
  let p := (Model.mk "Test" [] [] []).stock "a" ⟨[.whole "10"], .num 0⟩ formulaInf true
  let q := p.fst.stock "b" ⟨[.whole "10"], .num 0⟩ formulaInf true
  let r := q.fst.stock "c" ⟨[.whole "0"], .num 0⟩ formulaInf true
  let rate5 ← RateSpec.make .rate [.whole "5"]
  let rate3 ← RateSpec.make .rate [.whole "3"]
  let m ← r.fst.flow p.snd r.snd rate5
  m.flow q.snd r.snd rate3

/-! ## Basic lemmas: fuel irrelevance of the evaluator -/

theorem Tok.weight_pos (t : Tok) : 1 ≤ t.weight := by
  cases t <;> simp [Tok.weight]

mutual

theorem computeTok_fuel : ∀ (t : Tok) (n m : ℕ) (st : StateMap),
    Tok.weight t ≤ n → Tok.weight t ≤ m → computeTok n st t = computeTok m st t
  | .whole s, n, m, st, hn, hm => by
      match n, m with
      | 0, _ => simp [Tok.weight] at hn
      | _ + 1, 0 => simp [Tok.weight] at hm
      | n' + 1, m' + 1 => rfl
  | .decimal s, n, m, st, hn, hm => by
      match n, m with
      | 0, _ => simp [Tok.weight] at hn
      | _ + 1, 0 => simp [Tok.weight] at hm
      | n' + 1, m' + 1 => rfl
  | .infinity s, n, m, st, hn, hm => by
      match n, m with
      | 0, _ => simp [Tok.weight] at hn
      | _ + 1, 0 => simp [Tok.weight] at hm
      | n' + 1, m' + 1 => rfl
  | .reference s, n, m, st, hn, hm => by
      match n, m with
      | 0, _ => simp [Tok.weight] at hn
      | _ + 1, 0 => simp [Tok.weight] at hm
      | n' + 1, m' + 1 => rfl
  | .op s, n, m, st, hn, hm => by
      match n, m with
      | 0, _ => simp [Tok.weight] at hn
      | _ + 1, 0 => simp [Tok.weight] at hm
      | n' + 1, m' + 1 => rfl
  | .formula ts, n, m, st, hn, hm => by
      match n, m with
      | 0, _ => simp [Tok.weight] at hn
      | _ + 1, 0 => simp [Tok.weight] at hm
      | n' + 1, m' + 1 =>
        have hn' : Tok.weightList ts + 1 ≤ n' := by simp [Tok.weight] at hn; omega
        have hm' : Tok.weightList ts + 1 ≤ m' := by simp [Tok.weight] at hm; omega
        have hrw := computeLoop_fuel ts n' m' st none none hn' hm'
        simp only [computeTok]
        rw [hrw]
termination_by t _ _ _ _ _ => Tok.weight t
decreasing_by all_goals (simp [Tok.weight, Tok.weightList] <;> omega)

theorem computeLoop_fuel : ∀ (ts : List Tok) (n m : ℕ) (st : StateMap)
    (acc : Option JNum) (op : Option String),
    Tok.weightList ts + 1 ≤ n → Tok.weightList ts + 1 ≤ m →
    computeLoop n st acc op ts = computeLoop m st acc op ts
  | [], n, m, st, acc, op, hn, hm => by
      match n, m with
      | 0, _ => omega
      | _ + 1, 0 => omega
      | n' + 1, m' + 1 => rfl
  | .op s :: rest, n, m, st, acc, op, hn, hm => by
      match n, m with
      | 0, _ => omega
      | _ + 1, 0 => omega
      | n' + 1, m' + 1 =>
        have hn2 : Tok.weightList rest + 1 ≤ n' := by
          simp [Tok.weightList, Tok.weight] at hn; omega
        have hm2 : Tok.weightList rest + 1 ≤ m' := by
          simp [Tok.weightList, Tok.weight] at hm; omega
        simpa only [computeLoop] using computeLoop_fuel rest n' m' st acc (some s) hn2 hm2
  | .whole s :: rest, n, m, st, acc, op, hn, hm => by
      match n, m with
      | 0, _ => omega
      | _ + 1, 0 => omega
      | n' + 1, m' + 1 =>
        have hw : Tok.weight (.whole s) = 1 := rfl
        have hn1 : Tok.weight (Tok.whole s) ≤ n' := by simp [Tok.weightList] at hn; omega
        have hm1 : Tok.weight (Tok.whole s) ≤ m' := by simp [Tok.weightList] at hm; omega
        have hn2 : Tok.weightList rest + 1 ≤ n' := by simp [Tok.weightList, hw] at hn ⊢; omega
        have hm2 : Tok.weightList rest + 1 ≤ m' := by simp [Tok.weightList, hw] at hm ⊢; omega
        have ht := computeTok_fuel (.whole s) n' m' st hn1 hm1
        simp only [computeLoop]
        rw [ht]
        cases computeTok m' st (.whole s) with
        | ok v => exact computeLoop_fuel rest n' m' st _ op hn2 hm2
        | error e => rfl
  | .decimal s :: rest, n, m, st, acc, op, hn, hm => by
      match n, m with
      | 0, _ => omega
      | _ + 1, 0 => omega
      | n' + 1, m' + 1 =>
        have hw : Tok.weight (.decimal s) = 1 := rfl
        have hn1 : Tok.weight (Tok.decimal s) ≤ n' := by simp [Tok.weightList] at hn; omega
        have hm1 : Tok.weight (Tok.decimal s) ≤ m' := by simp [Tok.weightList] at hm; omega
        have hn2 : Tok.weightList rest + 1 ≤ n' := by simp [Tok.weightList, hw] at hn ⊢; omega
        have hm2 : Tok.weightList rest + 1 ≤ m' := by simp [Tok.weightList, hw] at hm ⊢; omega
        have ht := computeTok_fuel (.decimal s) n' m' st hn1 hm1
        simp only [computeLoop]
        rw [ht]
        cases computeTok m' st (.decimal s) with
        | ok v => exact computeLoop_fuel rest n' m' st _ op hn2 hm2
        | error e => rfl
  | .infinity s :: rest, n, m, st, acc, op, hn, hm => by
      match n, m with
      | 0, _ => omega
      | _ + 1, 0 => omega
      | n' + 1, m' + 1 =>
        have hw : Tok.weight (.infinity s) = 1 := rfl
        have hn1 : Tok.weight (Tok.infinity s) ≤ n' := by simp [Tok.weightList] at hn; omega
        have hm1 : Tok.weight (Tok.infinity s) ≤ m' := by simp [Tok.weightList] at hm; omega
        have hn2 : Tok.weightList rest + 1 ≤ n' := by simp [Tok.weightList, hw] at hn ⊢; omega
        have hm2 : Tok.weightList rest + 1 ≤ m' := by simp [Tok.weightList, hw] at hm ⊢; omega
        have ht := computeTok_fuel (.infinity s) n' m' st hn1 hm1
        simp only [computeLoop]
        rw [ht]
        cases computeTok m' st (.infinity s) with
        | ok v => exact computeLoop_fuel rest n' m' st _ op hn2 hm2
        | error e => rfl
  | .reference s :: rest, n, m, st, acc, op, hn, hm => by
      match n, m with
      | 0, _ => omega
      | _ + 1, 0 => omega
      | n' + 1, m' + 1 =>
        have hw : Tok.weight (.reference s) = 1 := rfl
        have hn1 : Tok.weight (Tok.reference s) ≤ n' := by simp [Tok.weightList] at hn; omega
        have hm1 : Tok.weight (Tok.reference s) ≤ m' := by simp [Tok.weightList] at hm; omega
        have hn2 : Tok.weightList rest + 1 ≤ n' := by simp [Tok.weightList, hw] at hn ⊢; omega
        have hm2 : Tok.weightList rest + 1 ≤ m' := by simp [Tok.weightList, hw] at hm ⊢; omega
        have ht := computeTok_fuel (.reference s) n' m' st hn1 hm1
        simp only [computeLoop]
        rw [ht]
        cases computeTok m' st (.reference s) with
        | ok v => exact computeLoop_fuel rest n' m' st _ op hn2 hm2
        | error e => rfl
  | .formula gs :: rest, n, m, st, acc, op, hn, hm => by
      match n, m with
      | 0, _ => omega
      | _ + 1, 0 => omega
      | n' + 1, m' + 1 =>
        have hn1 : Tok.weight (Tok.formula gs) ≤ n' := by simp [Tok.weightList] at hn; omega
        have hm1 : Tok.weight (Tok.formula gs) ≤ m' := by simp [Tok.weightList] at hm; omega
        have hn2 : Tok.weightList rest + 1 ≤ n' := by
          have h1 : 1 ≤ Tok.weight (Tok.formula gs) := Tok.weight_pos _
          simp [Tok.weightList] at hn; omega
        have hm2 : Tok.weightList rest + 1 ≤ m' := by
          have h1 : 1 ≤ Tok.weight (Tok.formula gs) := Tok.weight_pos _
          simp [Tok.weightList] at hm; omega
        have ht := computeTok_fuel (.formula gs) n' m' st hn1 hm1
        simp only [computeLoop]
        rw [ht]
        cases computeTok m' st (.formula gs) with
        | ok v => exact computeLoop_fuel rest n' m' st _ op hn2 hm2
        | error e => rfl
termination_by ts _ _ _ _ _ _ _ => Tok.weightList ts + 1
decreasing_by all_goals (simp [Tok.weight, Tok.weightList] <;> omega)

end

/-! ## Basic lemmas: association lists -/

theorem aGet?_aSet_self {α : Type} (l : List (String × α)) (k : String) (v : α) :
    aGet? (aSet l k v) k = some v := by
  induction l with
  | nil => simp [aSet, aGet?]
  | cons p rest ih =>
      by_cases hp : p.fst = k <;> simp [aSet, aGet?, hp, ih]

theorem aGet?_aSet_ne {α : Type} (l : List (String × α)) (k : String) (v : α) (x : String)
    (hx : x ≠ k) : aGet? (aSet l k v) x = aGet? l x := by
  have hkx : ¬(k = x) := fun h => hx h.symm
  induction l with
  | nil => simp [aSet, aGet?, hkx]
  | cons p rest ih =>
      by_cases hp : p.fst = k
      · have hpx : ¬(p.fst = x) := by rw [hp]; exact hkx
        simp [aSet, aGet?, hp, hpx, hkx]
      · by_cases hpx : p.fst = x <;> simp [aSet, aGet?, hp, hpx, hx, ih]

theorem jsGet_aSet_self (st : StateMap) (k : String) (v : JNum) :
    jsGet (aSet st k v) k = v := by
  simp [jsGet, aGet?_aSet_self]

theorem jsGet_aSet_ne (st : StateMap) (k : String) (v : JNum) (x : String) (hx : x ≠ k) :
    jsGet (aSet st k v) x = jsGet st x := by
  simp [jsGet, aGet?_aSet_ne st k v x hx]

/-- Every entry of an updated map satisfies a value predicate if the old
entries and the new value do. -/
theorem aSet_forall {α : Type} {P : α → Prop} {l : List (String × α)} {k : String} {v : α}
    (h : ∀ p ∈ l, P p.snd) (hv : P v) : ∀ p ∈ aSet l k v, P p.snd := by
  induction l with
  | nil =>
      intro p hp
      simp [aSet] at hp
      rw [hp]
      exact hv
  | cons q rest ih =>
      intro p hp
      by_cases hq : q.fst = k
      · simp [aSet, hq] at hp
        rcases hp with hp | hp
        · rw [hp]; exact hv
        · exact h p (by simp [hp])
      · simp [aSet, hq] at hp
        rcases hp with hp | hp
        · exact h p (by simp [hp])
        · exact ih (fun r hr => h r (by simp [hr])) p hp

/-- A looked-up value satisfies a predicate that holds of every entry and
of NaN (the missing-key result). -/
theorem jsGet_forall {P : JNum → Prop} {st : StateMap} {k : String}
    (h : ∀ p ∈ st, P p.snd) (hnan : P .nan) : P (jsGet st k) := by
  induction st with
  | nil => exact hnan
  | cons q rest ih =>
      by_cases hq : q.fst = k
      · simpa [jsGet, aGet?, hq] using h q (by simp)
      · simpa [jsGet, aGet?, hq] using ih (fun r hr => h r (by simp [hr]))

/-- A looked-up value is not negative when no entry of the map is. -/
theorem jsGet_nonneg {st : StateMap} (h : ∀ p ∈ st, JNum.jlt p.snd (.num 0) = false)
    (k : String) : JNum.jlt (jsGet st k) (.num 0) = false :=
  @jsGet_forall (fun v => JNum.jlt v (.num 0) = false) st k h rfl

/-! ## Basic lemmas: evaluator unfolding -/

theorem computeLoop_nil (n : ℕ) (st : StateMap) (acc : Option JNum) (op : Option String) :
    computeLoop (n + 1) st acc op [] = .ok acc := rfl

theorem computeLoop_op (n : ℕ) (st : StateMap) (acc : Option JNum) (op : Option String)
    (s : String) (rest : List Tok) :
    computeLoop (n + 1) st acc op (.op s :: rest) = computeLoop n st acc (some s) rest := rfl

theorem computeLoop_cons (n : ℕ) (st : StateMap) (acc : Option JNum) (op : Option String)
    (t : Tok) (rest : List Tok) (h : t.kind ≠ "operation") :
    computeLoop (n + 1) st acc op (t :: rest) =
      (computeTok n st t) >>= (fun val => computeLoop n st (some (applyAcc acc op val)) op rest) := by
  cases t with
  | op s => exact absurd rfl h
  | whole s => rfl
  | decimal s => rfl
  | infinity s => rfl
  | reference s => rfl
  | formula ts => rfl

/-! ## Claim C9: empty token sequence computes to the default -/

/-- Claim C9 (confirmed): computing a formula whose token sequence is empty
returns the formula's configured default value, for every environment and
default, rather than failing; while `validate`, run at construction,
rejects the empty sequence. -/
theorem empty_formula_computes_default :
    (∀ (env : StateMap) (d : JNum), Formula.compute ⟨[], d⟩ env = .ok d)
    ∧ (∀ d : JNum, Formula.validate ⟨[], d⟩ =
        .error (.invalidFormula ⟨[], d⟩ "formula is empty. must specify a number or a reference")) :=
  ⟨fun _ _ => rfl, fun _ => rfl⟩

/-! ## Claim C3: `references` does not see nested groups -/

/-- Shared helper: the `references` fold is the top-level filter. -/
theorem references_foldl (ts : List Tok) (acc : List String) :
    ts.foldl (fun refs t => match t with | Tok.reference v => refs ++ [v] | _ => refs) acc
      = acc ++ topRefs ts := by
  induction ts generalizing acc with
  | nil => simp [topRefs]
  | cons t rest ih =>
      cases t <;> simp [topRefs, List.filterMap_cons, ih]

/-- Claim C3 (counterexample): for the formula `(a) + b`, `references`
returns only `["b"]`, not the full leaf list `["a", "b"]` of the token
tree — reference leaves inside nested parenthesized groups are not
collected. -/
theorem references_misses_nested :
    Formula.ofString "(a) + b" (.num 0) =
      .ok ⟨[Tok.formula [Tok.reference "a"], Tok.op "+", Tok.reference "b"], .num 0⟩
    ∧ Formula.references ⟨[Tok.formula [Tok.reference "a"], Tok.op "+", Tok.reference "b"], .num 0⟩
        = ["b"]
    ∧ deepRefsList [Tok.formula [Tok.reference "a"], Tok.op "+", Tok.reference "b"]
        = ["a", "b"]
    ∧ (["b"] : List String) ≠ ["a", "b"] := by
  refine ⟨by decide, by decide, by decide, by decide⟩

/-- Claim C3 (amended): `Formula.references` returns exactly the names of
the reference-kind leaves at the top level of the formula's token sequence,
duplicates preserved, in appearance order, excluding whole-number, decimal
and infinity literals and excluding leaves inside nested groups. -/
theorem references_eq_topRefs : ∀ (f : Formula), f.references = topRefs f.lexed := by
  intro f
  unfold Formula.references
  simpa using references_foldl f.lexed []

/-! ## Claim C5: left-to-right evaluation with no precedence -/

theorem splitAltPairs_inv : ∀ (ts : List Tok) (ps : List (String × Tok)),
    splitAltPairs ts = some ps →
    ts = flatPairs ps ∧ ∀ p ∈ ps, p.snd.kind ≠ "operation"
  | [], ps, h => by
      simp [splitAltPairs] at h
      subst h
      simp [flatPairs]
  | [.op s], ps, h => by simp [splitAltPairs] at h
  | .op s :: t :: rest, ps, h => by
      simp only [splitAltPairs] at h
      by_cases hk : t.kind = "operation"
      · simp [hk] at h
      · rw [if_neg hk] at h
        cases hsp : splitAltPairs rest with
        | none => rw [hsp] at h; simp at h
        | some ps' =>
            rw [hsp] at h
            simp only [Option.map] at h
            have hpe : (s, t) :: ps' = ps := by
              injection h
            obtain ⟨hrest, hok⟩ := splitAltPairs_inv rest ps' hsp
            subst hpe
            constructor
            · show Tok.op s :: t :: rest = flatPairs ((s, t) :: ps')
              rw [hrest]
              rfl
            · intro p hp
              rcases List.mem_cons.mp hp with hp | hp
              · rw [hp]; exact hk
              · exact hok p hp
  | .whole s :: rest, ps, h => by simp [splitAltPairs] at h
  | .decimal s :: rest, ps, h => by simp [splitAltPairs] at h
  | .infinity s :: rest, ps, h => by simp [splitAltPairs] at h
  | .reference s :: rest, ps, h => by simp [splitAltPairs] at h
  | .formula gs :: rest, ps, h => by simp [splitAltPairs] at h

theorem splitAlt_inv (ts : List Tok) (t0 : Tok) (ps : List (String × Tok))
    (h : splitAlt ts = some (t0, ps)) :
    ts = t0 :: flatPairs ps ∧ t0.kind ≠ "operation" ∧ ∀ p ∈ ps, p.snd.kind ≠ "operation" := by
  cases ts with
  | nil => simp [splitAlt] at h
  | cons t rest =>
      simp only [splitAlt] at h
      by_cases hk : t.kind = "operation"
      · simp [hk] at h
      · rw [if_neg hk] at h
        cases hsp : splitAltPairs rest with
        | none => rw [hsp] at h; simp at h
        | some ps' =>
            rw [hsp] at h
            simp only [Option.map] at h
            injection h with h2
            cases h2
            obtain ⟨hrest, hok⟩ := splitAltPairs_inv rest ps hsp
            exact ⟨by rw [hrest], hk, hok⟩

theorem computeLoop_flatPairs : ∀ (ps : List (String × Tok)) (n : ℕ) (st : StateMap)
    (a : JNum) (op : Option String),
    Tok.weightList (flatPairs ps) + 1 ≤ n →
    (∀ p ∈ ps, p.snd.kind ≠ "operation") →
    computeLoop n st (some a) op (flatPairs ps) =
      (ps.foldlM (ltrStep st) a).map some
  | [], n, st, a, op, hn, _ => by
      match n with
      | 0 => simp [flatPairs, Tok.weightList] at hn
      | n' + 1 => rfl
  | (s, t) :: ps', n, st, a, op, hn, hok => by
      have hflat : flatPairs ((s, t) :: ps') = .op s :: t :: flatPairs ps' := rfl
      have hkt : t.kind ≠ "operation" := hok (s, t) (by simp)
      have hwt : 1 ≤ Tok.weight t := Tok.weight_pos t
      rw [hflat] at hn
      simp only [Tok.weightList, Tok.weight] at hn
      match n with
      | 0 => omega
      | 1 => omega
      | n'' + 2 =>
        have hn1 : Tok.weight t ≤ n'' := by omega
        have hn2 : Tok.weightList (flatPairs ps') + 1 ≤ n'' := by omega
        rw [hflat, computeLoop_op, computeLoop_cons _ _ _ _ _ _ hkt,
          computeTok_fuel t n'' (Tok.weight t) st hn1 le_rfl]
        show (computeTok (Tok.weight t) st t >>= fun val =>
            computeLoop n'' st (some (applyAcc (some a) (some s) val)) (some s) (flatPairs ps'))
          = (List.foldlM (ltrStep st) a ((s, t) :: ps')).map some
        cases hv : computeTok (Tok.weight t) st t with
        | error e =>
            have hstep : ltrStep st a (s, t) = Except.error e := by
              simp only [ltrStep, computeTok1, hv]
              rfl
            simp only [List.foldlM]
            rw [hstep]
            rfl
        | ok v =>
            have hstep : ltrStep st a (s, t) = Except.ok (applyAcc (some a) (some s) v) := by
              simp only [ltrStep, computeTok1, hv]
              rfl
            simp only [List.foldlM]
            rw [hstep]
            show computeLoop n'' st (some (applyAcc (some a) (some s) v)) (some s) (flatPairs ps')
              = (ps'.foldlM (ltrStep st) (applyAcc (some a) (some s) v)).map some
            exact computeLoop_flatPairs ps' n'' st (applyAcc (some a) (some s) v) (some s) hn2
              (fun p hp => hok p (by simp [hp]))

/-- Claim C5 (confirmed): `Formula.compute` evaluates the token sequence
strictly left to right with no operator precedence — on any sequence of the
validated alternating shape it equals the left fold that applies each
pending operator to the running accumulator and the next operand as soon as
both are available — and in particular `Formula("10 + 5 * 2").compute()`
is 30, not 20. -/
theorem compute_left_to_right_no_precedence :
    (∀ (f : Formula) (env : StateMap) (t0 : Tok) (ps : List (String × Tok)),
        splitAlt f.lexed = some (t0, ps) → f.compute env = computeLTR env t0 ps)
    ∧ (Formula.ofString "10 + 5 * 2" (.num 0)).bind (fun f => f.compute []) = .ok (.num 30)
    ∧ (Formula.ofString "10 + 5 * 2" (.num 0)).bind (fun f => f.compute []) ≠ .ok (.num 20) := by
  refine ⟨?_, by decide, by decide⟩
  intro f env t0 ps h
  obtain ⟨hlex, hk0, hok⟩ := splitAlt_inv f.lexed t0 ps h
  unfold Formula.compute
  rw [hlex]
  have hw0 : 1 ≤ Tok.weight t0 := Tok.weight_pos t0
  have hwl : Tok.weightList (t0 :: flatPairs ps)
      = Tok.weight t0 + Tok.weightList (flatPairs ps) + 1 := rfl
  rw [hwl, computeLoop_cons _ _ _ _ _ _ hk0,
    computeTok_fuel t0 (Tok.weight t0 + Tok.weightList (flatPairs ps) + 1) (Tok.weight t0) env
      (by omega) le_rfl]
  unfold computeLTR computeTok1
  cases hv : computeTok (Tok.weight t0) env t0 with
  | error e => rfl
  | ok v =>
      show (computeLoop (Tok.weight t0 + Tok.weightList (flatPairs ps) + 1) env
          (some v) none (flatPairs ps)) >>=
          (fun r => match r with | some a => Except.ok a | none => Except.ok f.default) = _
      rw [computeLoop_flatPairs ps _ env v none (by omega) hok]
      show (ps.foldlM (ltrStep env) v).map some >>=
          (fun r => match r with | some a => Except.ok a | none => Except.ok f.default)
        = ps.foldlM (ltrStep env) v
      cases ps.foldlM (ltrStep env) v <;> rfl

/-- Claim C5 witness: the theorem applied to the concrete formula
`10 + 5 * 2`. -/
theorem compute_left_to_right_no_precedence_witness :
    splitAlt [Tok.whole "10", Tok.op "+", Tok.whole "5", Tok.op "*", Tok.whole "2"]
      = some (Tok.whole "10", [("+", Tok.whole "5"), ("*", Tok.whole "2")])
    ∧ Formula.compute ⟨[Tok.whole "10", Tok.op "+", Tok.whole "5", Tok.op "*", Tok.whole "2"], .num 0⟩ []
        = computeLTR [] (Tok.whole "10") [("+", Tok.whole "5"), ("*", Tok.whole "2")] :=
  ⟨by decide,
   compute_left_to_right_no_precedence.1
     ⟨[Tok.whole "10", Tok.op "+", Tok.whole "5", Tok.op "*", Tok.whole "2"], .num 0⟩
     [] (Tok.whole "10") [("+", Tok.whole "5"), ("*", Tok.whole "2")] (by decide)⟩

/-! ## Claim C4: `run(n)` yields `n+1` snapshots, the first the fresh state -/

theorem except_bind_error {ε α β : Type} (e : ε) (f : α → Except ε β) :
    (Except.error e >>= f) = Except.error e := rfl

theorem except_bind_ok {ε α β : Type} (a : α) (f : α → Except ε β) :
    (Except.ok a >>= f : Except ε β) = f a := rfl

theorem run_foldlM_spec (m : Model) : ∀ (l : List ℕ) (acc : List StateMap) (s : StateMap)
    (res : List StateMap × StateMap),
    l.foldlM
      (fun (acc : List StateMap × StateMap) _ => do
        let s ← State.advance m acc.snd
        Except.ok (acc.fst ++ [State.snapshot s], s))
      (acc, s) = .ok res →
    res.fst.length = acc.length + l.length ∧ (acc ≠ [] → res.fst.head? = acc.head?)
  | [], acc, s, res, h => by
      simp only [List.foldlM] at h
      injection h with h
      rw [← h]
      exact ⟨rfl, fun _ => rfl⟩
  | _ :: l', acc, s, res, h => by
      simp only [List.foldlM] at h
      cases ha : State.advance m s with
      | error e =>
          rw [ha, except_bind_error, except_bind_error] at h
          exact Except.noConfusion h
      | ok s' =>
          rw [ha, except_bind_ok, except_bind_ok] at h
          obtain ⟨hlen, hhead⟩ := run_foldlM_spec m l' (acc ++ [State.snapshot s']) s' res h
          constructor
          · rw [hlen]
            simp
            omega
          · intro hne
            rw [hhead (by simp)]
            exact List.head?_append_of_ne_nil acc hne

/-- Claim C4 (confirmed): whenever `run(n)` succeeds (the model passes
validation), it returns exactly `n + 1` snapshots, and the snapshot at index
0 is the snapshot of the freshly-constructed state of the validated model,
taken before any advance. -/
theorem run_snapshot_count_and_initial (m : Model) (n : ℕ) (res : List StateMap)
    (h : m.run n = .ok res) :
    res.length = n + 1 ∧
    ∃ m' s0, m.validate = .ok m' ∧ State.ofModel m' = .ok s0 ∧
      res.head? = some (State.snapshot s0) := by
  unfold Model.run at h
  cases hv : m.validate with
  | error e =>
      rw [hv, except_bind_error] at h
      exact Except.noConfusion h
  | ok m' =>
      rw [hv, except_bind_ok] at h
      cases hs : State.ofModel m' with
      | error e =>
          rw [hs, except_bind_error] at h
          exact Except.noConfusion h
      | ok s0 =>
          rw [hs, except_bind_ok] at h
          cases hf : (List.range n).foldlM
              (fun (acc : List StateMap × StateMap) _ => do
                let s ← State.advance m' acc.snd
                Except.ok (acc.fst ++ [State.snapshot s], s))
              ([State.snapshot s0], s0) with
          | error e =>
              rw [hf, except_bind_error] at h
              exact Except.noConfusion h
          | ok go =>
              rw [hf, except_bind_ok] at h
              injection h with h
              obtain ⟨hlen, hhead⟩ :=
                run_foldlM_spec m' (List.range n) [State.snapshot s0] s0 go hf
              rw [← h]
              refine ⟨by simp at hlen; omega, m', s0, rfl, hs, ?_⟩
              simpa using hhead (by simp)

/-- Claim C4 witness: a one-stock model run for 2 rounds. -/
theorem run_snapshot_count_and_initial_witness :
    (Model.mk "W" [⟨"a", formulaZero, formulaInf, true⟩] [] []).run 2
      = .ok [[("a", JNum.num 0)], [("a", JNum.num 0)], [("a", JNum.num 0)]]
    ∧ ([[("a", JNum.num 0)], [("a", JNum.num 0)], [("a", JNum.num 0)]] :
        List StateMap).length = 2 + 1
    ∧ ∃ m' s0, (Model.mk "W" [⟨"a", formulaZero, formulaInf, true⟩] [] []).validate = .ok m'
        ∧ State.ofModel m' = .ok s0
        ∧ ([[("a", JNum.num 0)], [("a", JNum.num 0)], [("a", JNum.num 0)]] :
            List StateMap).head? = some (State.snapshot s0) :=
  ⟨by decide,
   (run_snapshot_count_and_initial (Model.mk "W" [⟨"a", formulaZero, formulaInf, true⟩] [] [])
      2 [[("a", JNum.num 0)], [("a", JNum.num 0)], [("a", JNum.num 0)]] (by decide)).1,
   (run_snapshot_count_and_initial (Model.mk "W" [⟨"a", formulaZero, formulaInf, true⟩] [] [])
      2 [[("a", JNum.num 0)], [("a", JNum.num 0)], [("a", JNum.num 0)]] (by decide)).2⟩

/-! ## Claim C7: stock re-declaration semantics -/

/-- Claim C7 (confirmed): during parsing, re-declaring a stock with a
non-default initial value fills in a still-default initial without error
(after `a > b @ 5` then `b(10) > c @ 3`, stock `b`'s initial formula
computes to 10), while re-declaring with a non-default value differing from
an already-set non-default one raises `ConflictingValues` naming the stock
(`a(10) > b @ 5` then `a(20) > c @ 3` fails on `a`). -/
theorem stock_reuse_fill_in_and_conflict :
    ((parse "a > b @ 5\nb(10) > c @ 3").bind (fun m =>
        match m.getStock "b" with
        | some p => p.snd.initial.compute []
        | none => .error (.jsError "missing stock")) = .ok (.num 10)
      ∧ (parse "a > b @ 5\nb(10) > c @ 3").isOk = true)
    ∧ parse "a(10) > b @ 5\na(20) > c @ 3"
      = .error (.conflictingValues "a" ⟨[.whole "10"], .num 0⟩ ⟨[.whole "20"], .num 0⟩ 2) := by
  exact ⟨⟨by decide, by decide⟩, by decide⟩

/-! ## Claim C8: immediate removal, deferred addition, fan-in of 5 and 3 -/

/-- Claim C8 (confirmed): within one `State.advance` round each flow's
removal hits its source immediately while additions are deferred and
committed after all flows are processed; two Rate flows of 5 and 3 into a
shared destination starting at 0 with unbounded capacity leave the
destination at exactly 8 after one round (and the sources at 5 and 7). -/
theorem advance_fan_in_deferred_commit :
    (fanInModel.bind (fun m => do
      let m' ← m.validate
      let s0 ← State.ofModel m'
      let s1 ← State.advance m' s0
      Except.ok (jsGet s0 "c", jsGet s1 "c", jsGet s1 "a", jsGet s1 "b")))
    = .ok (.num 0, .num 8, .num 5, .num 7) := by decide

/-! ## Claim C10: `findCycles` consumes its inward-edges argument -/

/-- Claim C10 (confirmed): JavaScript `findCycles` mutates the caller's
`inGraph` object in place while working on a copy of `outGraph`; the
embedding returns the final contents of the `inGraph` argument as the second
component.  On the acyclic input `in = {a: [], b: [a]}`,
`out = {a: [b], b: []}`, the caller's inward map ends as `{a: [], b: []}` —
an entry has been removed — and the emptied working copy differs from the
untouched `outGraph` value. -/
theorem findCycles_consumes_inward_graph :
    (findCycles [("a", []), ("b", ["a"])] [("a", ["b"]), ("b", [])]).snd
        = [("a", []), ("b", [])]
    ∧ (findCycles [("a", []), ("b", ["a"])] [("a", ["b"]), ("b", [])]).snd
        ≠ [("a", []), ("b", ["a"])]
    ∧ (findCycles [("a", []), ("b", ["a"])] [("a", ["b"]), ("b", [])]).fst.hasCycle = false
    ∧ (findCycles [("a", []), ("b", ["a"])] [("a", ["b"]), ("b", [])]).fst.cycles
        = [("a", []), ("b", [])]
    ∧ (findCycles [("a", []), ("b", ["a"])] [("a", ["b"]), ("b", [])]).fst.cycles
        ≠ [("a", ["b"]), ("b", [])] := by
  refine ⟨by decide, by decide, by decide, by decide, by decide⟩

/-! ## Claim C1: non-negativity -/

/-- Claim C1 (counterexample): a `Conversion` flow consumes
`floor((capacity - dest) / factor)` source units without clamping to the
available source; from `a(5) > b(0, 10) @ Conversion(0.5)` one round drives
stock `a` to −15, a negative value. -/
theorem conversion_drives_stock_negative :
    (parse "a(5) > b(0, 10) @ Conversion(0.5)").bind (fun m => m.run 1)
      = .ok [[("a", JNum.num 5), ("b", JNum.num 0)],
             [("a", JNum.num (-15)), ("b", JNum.num 10)]]
    ∧ JNum.jlt (JNum.num (-15)) (JNum.num 0) = true := by
  exact ⟨by decide, by decide⟩

theorem jlt_num_zero (q : ℚ) : JNum.jlt (.num q) (.num 0) = false ↔ 0 ≤ q := by
  simp [JNum.jlt, not_lt]

theorem not_neg_cases (v : JNum) (h : JNum.jlt v (.num 0) = false) :
    v = .nan ∨ v = .inf ∨ ∃ q : ℚ, v = .num q ∧ 0 ≤ q := by
  cases v with
  | nan => exact Or.inl rfl
  | inf => exact Or.inr (Or.inl rfl)
  | ninf => simp [JNum.jlt] at h
  | num q => exact Or.inr (Or.inr ⟨q, rfl, (jlt_num_zero q).mp h⟩)

theorem jadd_nonneg (a b : JNum) (ha : JNum.jlt a (.num 0) = false)
    (hb : JNum.jlt b (.num 0) = false) : JNum.jlt (JNum.jadd a b) (.num 0) = false := by
  rcases not_neg_cases a ha with rfl | rfl | ⟨qa, rfl, hqa⟩ <;>
    rcases not_neg_cases b hb with rfl | rfl | ⟨qb, rfl, hqb⟩ <;>
      simp [JNum.jadd, JNum.jlt, qadd_eq, not_lt] <;> linarith

/-- `formulaInf` computes to positive infinity on every state. -/
theorem formulaInf_compute (st : StateMap) : formulaInf.compute st = .ok .inf := rfl

theorem jmin_nan_left (b : JNum) : JNum.jmin .nan b = .nan := by cases b <;> rfl

theorem jmin_inf_left (b : JNum) : JNum.jmin .inf b = b := by
  cases b <;> simp [JNum.jmin, JNum.jlt]

theorem jmax_zero_num (e : ℚ) : JNum.jmax (.num 0) (.num e) = .num (max 0 e) := by
  by_cases he : 0 < e
  · simp [JNum.jmax, JNum.jlt, he, max_eq_right (le_of_lt he)]
  · simp [JNum.jmax, JNum.jlt, he, max_eq_left (not_lt.mp he)]

theorem jsub_num_nan (q : ℚ) : JNum.jsub (.num q) .nan = .nan := rfl

theorem jsub_num_inf (q : ℚ) : JNum.jsub (.num q) .inf = .ninf := rfl

theorem jsub_num_ninf (q : ℚ) : JNum.jsub (.num q) .ninf = .inf := rfl

theorem jsub_inf_num (q : ℚ) : JNum.jsub .inf (.num q) = .inf := rfl

/-- The clamped Rate transfer out of a nonnegative source into a
destination of unbounded maximum: the transferred amount is not negative and
does not drive the source negative. -/
theorem rate_clamp_nonneg (srcV destV ev : JNum)
    (hsrc : JNum.jlt srcV (.num 0) = false) (hdest : JNum.jlt destV (.num 0) = false) :
    (JNum.jgt srcV (.num 0) = true →
      (JNum.jlt (JNum.jmin (if destV ≠ JNum.inf then JNum.jsub .inf destV else .inf)
          (JNum.jmax (.num 0) (if JNum.jge (JNum.jsub srcV ev) (.num 0) then ev else srcV)))
        (.num 0) = false
      ∧ JNum.jlt (JNum.jsub srcV
          (JNum.jmin (if destV ≠ JNum.inf then JNum.jsub .inf destV else .inf)
            (JNum.jmax (.num 0) (if JNum.jge (JNum.jsub srcV ev) (.num 0) then ev else srcV))))
        (.num 0) = false))
    ∧ (JNum.jgt srcV (.num 0) = false →
        JNum.jlt (JNum.jsub srcV (.num 0)) (.num 0) = false) := by
  constructor
  · intro hgt
    -- the adjusted capacity is `inf` or `nan`
    have hadj : (if destV ≠ JNum.inf then JNum.jsub .inf destV else .inf) = JNum.inf
        ∨ (if destV ≠ JNum.inf then JNum.jsub .inf destV else .inf) = JNum.nan := by
      rcases not_neg_cases destV hdest with rfl | rfl | ⟨qd, rfl, _⟩
      · right; rfl
      · left; simp
      · left; simp [jsub_inf_num]
    -- the source is positive: `inf` or a positive rational
    have hs : srcV = JNum.inf ∨ ∃ qs : ℚ, srcV = .num qs ∧ 0 < qs := by
      cases srcV with
      | nan => simp [JNum.jgt, JNum.jlt] at hgt
      | inf => exact Or.inl rfl
      | ninf => simp [JNum.jgt, JNum.jlt] at hgt
      | num q =>
          refine Or.inr ⟨q, rfl, ?_⟩
          simpa [JNum.jgt, JNum.jlt] using hgt
    rcases hadj with hadj | hadj <;> rw [hadj]
    case inr =>
      -- NaN capacity: the clamped change is NaN, the source becomes NaN
      rw [jmin_nan_left]
      refine ⟨rfl, ?_⟩
      rcases hs with rfl | ⟨qs, rfl, _⟩
      · rfl
      · rfl
    case inl =>
      rw [jmin_inf_left]
      -- the change is `max(0, change₀)`, a nonnegative number, `0`, or `inf`
      rcases hs with rfl | ⟨qs, rfl, hqs⟩
      · -- infinite source: the result is `inf` or NaN, never negative
        cases ev with
        | nan => exact ⟨rfl, rfl⟩
        | inf => exact ⟨rfl, rfl⟩
        | ninf => exact ⟨rfl, rfl⟩
        | num e =>
            have h1 : (if JNum.jge (JNum.jsub .inf (.num e)) (.num 0) = true then JNum.num e
                else JNum.inf) = .num e := by
              simp [jsub_inf_num, JNum.jge, JNum.jlt]
            rw [h1, jmax_zero_num]
            constructor
            · exact decide_eq_false (not_lt.mpr (le_max_left 0 e))
            · simp [JNum.jsub, JNum.jneg, JNum.jadd, JNum.jlt]
      · -- finite positive source
        have hchange : ∃ y : ℚ,
            JNum.jmax (.num 0)
              (if JNum.jge (JNum.jsub (.num qs) ev) (.num 0) = true then ev else .num qs)
              = .num y ∧ 0 ≤ y ∧ y ≤ qs := by
          cases ev with
          | nan =>
              rw [show (if JNum.jge (JNum.jsub (.num qs) .nan) (.num 0) = true then JNum.nan
                  else JNum.num qs) = .num qs from rfl, jmax_zero_num]
              exact ⟨max 0 qs, rfl, le_max_left 0 qs, max_le (le_of_lt hqs) (le_refl qs)⟩
          | inf =>
              rw [show (if JNum.jge (JNum.jsub (.num qs) .inf) (.num 0) = true then JNum.inf
                  else JNum.num qs) = .num qs from rfl, jmax_zero_num]
              exact ⟨max 0 qs, rfl, le_max_left 0 qs, max_le (le_of_lt hqs) (le_refl qs)⟩
          | ninf =>
              rw [show (if JNum.jge (JNum.jsub (.num qs) .ninf) (.num 0) = true then JNum.ninf
                  else JNum.num qs) = .ninf from rfl]
              exact ⟨0, rfl, le_refl 0, le_of_lt hqs⟩
          | num e =>
              rw [JNum.jsub_num]
              by_cases he : e ≤ qs
              · have hcond : JNum.jge (.num (qs - e)) (.num 0) = true := by
                  simp [JNum.jge, JNum.jlt, not_lt]
                  linarith
                rw [if_pos hcond, jmax_zero_num]
                exact ⟨max 0 e, rfl, le_max_left 0 e, max_le (le_of_lt hqs) he⟩
              · have hcond : JNum.jge (.num (qs - e)) (.num 0) = false := by
                  simp [JNum.jge, JNum.jlt]
                  linarith [not_le.mp he]
                rw [if_neg (by simp [hcond]), jmax_zero_num]
                exact ⟨max 0 qs, rfl, le_max_left 0 qs, max_le (le_of_lt hqs) (le_refl qs)⟩
        obtain ⟨y, hy, hy0, hys⟩ := hchange
        rw [hy]
        constructor
        · exact decide_eq_false (not_lt.mpr hy0)
        · rw [JNum.jsub_num]
          exact decide_eq_false (not_lt.mpr (by linarith))
  · intro _
    rcases not_neg_cases srcV hsrc with rfl | rfl | ⟨qs, rfl, hqs⟩
    · rfl
    · rfl
    · rw [JNum.jsub_num]
      exact decide_eq_false (not_lt.mpr (by linarith))

/-- `State.advanceStep` on a Rate flow whose destination has the default
unbounded maximum, written out explicitly. -/
theorem advanceStep_rate_eq (m : Model) (f : Flow) (st : StateMap)
    (deferred : List (String × JNum))
    (hk : f.rate.kind = RateKind.rate)
    (hm : (m.stockAt f.destination).maximum = formulaInf) :
    State.advanceStep m (st, deferred) f =
      (f.rate.formula.compute st).map (fun ev =>
        (aSet st (m.stockAt f.source).name
          (JNum.jsub (jsGet st (m.stockAt f.source).name)
            (if JNum.jgt (jsGet st (m.stockAt f.source).name) (.num 0)
             then JNum.jmin
                (if jsGet st (m.stockAt f.destination).name ≠ JNum.inf
                 then JNum.jsub .inf (jsGet st (m.stockAt f.destination).name) else .inf)
                (JNum.jmax (.num 0)
                  (if JNum.jge (JNum.jsub (jsGet st (m.stockAt f.source).name) ev) (.num 0)
                   then ev else jsGet st (m.stockAt f.source).name))
             else .num 0)),
         deferred ++ [((m.stockAt f.destination).name,
            (if JNum.jgt (jsGet st (m.stockAt f.source).name) (.num 0)
             then JNum.jmin
                (if jsGet st (m.stockAt f.destination).name ≠ JNum.inf
                 then JNum.jsub .inf (jsGet st (m.stockAt f.destination).name) else .inf)
                (JNum.jmax (.num 0)
                  (if JNum.jge (JNum.jsub (jsGet st (m.stockAt f.source).name) ev) (.num 0)
                   then ev else jsGet st (m.stockAt f.source).name))
             else .num 0))])) := by
  unfold State.advanceStep Flow.change RateSpec.calculate
  rw [hm, formulaInf_compute, hk]
  cases f.rate.formula.compute st with
  | error e => rfl
  | ok ev =>
      by_cases hgt : JNum.jgt (jsGet st (m.stockAt f.source).name) (.num 0) = true
      · simp only [except_bind_ok, if_pos hgt, Except.map]
      · simp only [except_bind_ok, if_neg hgt, Except.map]

/-- One Rate step preserves entrywise non-negativity of the state and of
the deferred additions. -/
theorem advanceStep_nonneg (m : Model) (f : Flow) (st : StateMap)
    (deferred : List (String × JNum)) (out : StateMap × List (String × JNum))
    (hk : f.rate.kind = RateKind.rate)
    (hm : (m.stockAt f.destination).maximum = formulaInf)
    (hst : ∀ p ∈ st, JNum.jlt p.snd (.num 0) = false)
    (hdef : ∀ p ∈ deferred, JNum.jlt p.snd (.num 0) = false)
    (h : State.advanceStep m (st, deferred) f = .ok out) :
    (∀ p ∈ out.fst, JNum.jlt p.snd (.num 0) = false)
    ∧ (∀ p ∈ out.snd, JNum.jlt p.snd (.num 0) = false) := by
  rw [advanceStep_rate_eq m f st deferred hk hm] at h
  cases hc : f.rate.formula.compute st with
  | error e =>
      rw [hc] at h
      exact Except.noConfusion h
  | ok ev =>
      rw [hc] at h
      simp only [Except.map] at h
      injection h with h
      have hsrc : JNum.jlt (jsGet st (m.stockAt f.source).name) (.num 0) = false :=
        jsGet_nonneg hst _
      have hdest : JNum.jlt (jsGet st (m.stockAt f.destination).name) (.num 0) = false :=
        jsGet_nonneg hst _
      have hclamp := rate_clamp_nonneg (jsGet st (m.stockAt f.source).name)
        (jsGet st (m.stockAt f.destination).name) ev hsrc hdest
      have hchange : JNum.jlt
          (if JNum.jgt (jsGet st (m.stockAt f.source).name) (.num 0)
           then JNum.jmin
              (if jsGet st (m.stockAt f.destination).name ≠ JNum.inf
               then JNum.jsub .inf (jsGet st (m.stockAt f.destination).name) else .inf)
              (JNum.jmax (.num 0)
                (if JNum.jge (JNum.jsub (jsGet st (m.stockAt f.source).name) ev) (.num 0)
                 then ev else jsGet st (m.stockAt f.source).name))
           else .num 0) (.num 0) = false
          ∧ JNum.jlt (JNum.jsub (jsGet st (m.stockAt f.source).name)
            (if JNum.jgt (jsGet st (m.stockAt f.source).name) (.num 0)
             then JNum.jmin
                (if jsGet st (m.stockAt f.destination).name ≠ JNum.inf
                 then JNum.jsub .inf (jsGet st (m.stockAt f.destination).name) else .inf)
                (JNum.jmax (.num 0)
                  (if JNum.jge (JNum.jsub (jsGet st (m.stockAt f.source).name) ev) (.num 0)
                   then ev else jsGet st (m.stockAt f.source).name))
             else .num 0)) (.num 0) = false := by
        by_cases hgt : JNum.jgt (jsGet st (m.stockAt f.source).name) (.num 0) = true
        · rw [if_pos hgt]
          exact ⟨(hclamp.1 hgt).1, (hclamp.1 hgt).2⟩
        · have hgtf : JNum.jgt (jsGet st (m.stockAt f.source).name) (.num 0) = false := by
            revert hgt
            cases JNum.jgt (jsGet st (m.stockAt f.source).name) (.num 0) <;> simp
          rw [if_neg hgt]
          exact ⟨rfl, hclamp.2 hgtf⟩
      rw [← h]
      constructor
      · exact @aSet_forall JNum (fun v => JNum.jlt v (.num 0) = false) st _ _ hst hchange.2
      · intro p hp
        rcases List.mem_append.mp hp with hp | hp
        · exact hdef p hp
        · rw [List.mem_singleton.mp hp]
          exact hchange.1

/-- The flow fold of `State.advance` preserves non-negativity when every
flow is a Rate flow into an unbounded destination. -/
theorem advance_fold_nonneg (m : Model) : ∀ (fs : List Flow) (st : StateMap)
    (deferred : List (String × JNum)) (out : StateMap × List (String × JNum)),
    (∀ f ∈ fs, f.rate.kind = RateKind.rate ∧ (m.stockAt f.destination).maximum = formulaInf) →
    (∀ p ∈ st, JNum.jlt p.snd (.num 0) = false) →
    (∀ p ∈ deferred, JNum.jlt p.snd (.num 0) = false) →
    fs.foldlM (State.advanceStep m) (st, deferred) = .ok out →
    (∀ p ∈ out.fst, JNum.jlt p.snd (.num 0) = false)
    ∧ (∀ p ∈ out.snd, JNum.jlt p.snd (.num 0) = false)
  | [], st, deferred, out, _, hst, hdef, h => by
      simp only [List.foldlM] at h
      injection h with h
      rw [← h]
      exact ⟨hst, hdef⟩
  | f :: fs', st, deferred, out, hfs, hst, hdef, h => by
      simp only [List.foldlM] at h
      cases hs : State.advanceStep m (st, deferred) f with
      | error e =>
          rw [hs, except_bind_error] at h
          exact Except.noConfusion h
      | ok mid =>
          rw [hs, except_bind_ok] at h
          obtain ⟨hk, hm⟩ := hfs f (by simp)
          obtain ⟨hmid1, hmid2⟩ := advanceStep_nonneg m f st deferred mid hk hm hst hdef hs
          exact advance_fold_nonneg m fs' mid.fst mid.snd out
            (fun g hg => hfs g (by simp [hg])) hmid1 hmid2 (by simpa using h)

/-- Committing deferred nonnegative additions preserves entrywise
non-negativity. -/
theorem commit_nonneg : ∀ (deferred : List (String × JNum)) (st : StateMap),
    (∀ p ∈ st, JNum.jlt p.snd (.num 0) = false) →
    (∀ p ∈ deferred, JNum.jlt p.snd (.num 0) = false) →
    ∀ p ∈ deferred.foldl State.commitStep st, JNum.jlt p.snd (.num 0) = false
  | [], st, hst, _ => hst
  | d :: ds, st, hst, hdef => by
      have hstep : ∀ p ∈ State.commitStep st d, JNum.jlt p.snd (.num 0) = false := by
        unfold State.commitStep
        exact @aSet_forall JNum (fun v => JNum.jlt v (.num 0) = false) st _ _ hst
          (jadd_nonneg _ _ (jsGet_nonneg hst _) (hdef d (by simp)))
      exact commit_nonneg ds (State.commitStep st d) hstep
        (fun p hp => hdef p (by simp [hp]))

/-- Claim C1 (amended): in a model all of whose flows are Rate flows with
destinations left at the default unbounded maximum, a round of
`State.advance` never makes any stock's value negative: if no entry of the
state map is negative before the round, no entry is negative after it
(including the deferred additions).  As stated the claim is false: the
Conversion rule consumes `floor((capacity − dest) / factor)` source units
without clamping to the available source (see the counterexample), and a
Leak fraction above 1 similarly over-drains; the Rate rule's clamping does
guarantee the invariant. -/
theorem advance_rate_flows_nonneg (m : Model) (st st' : StateMap)
    (hkinds : ∀ f ∈ m.flows, f.rate.kind = RateKind.rate)
    (hmax : ∀ f ∈ m.flows, (m.stockAt f.destination).maximum = formulaInf)
    (hpre : ∀ p ∈ st, JNum.jlt p.snd (.num 0) = false)
    (hadv : State.advance m st = .ok st') :
    ∀ p ∈ st', JNum.jlt p.snd (.num 0) = false := by
  unfold State.advance at hadv
  cases hf : m.flows.reverse.foldlM (State.advanceStep m) (st, ([] : List (String × JNum))) with
  | error e =>
      rw [hf, except_bind_error] at hadv
      exact Except.noConfusion hadv
  | ok out =>
      rw [hf, except_bind_ok] at hadv
      injection hadv with hadv
      obtain ⟨hout1, hout2⟩ := advance_fold_nonneg m m.flows.reverse st [] out
        (fun f hf' => ⟨hkinds f (List.mem_reverse.mp hf'), hmax f (List.mem_reverse.mp hf')⟩)
        hpre (by intro p hp; simp at hp) hf
      rw [← hadv]
      exact commit_nonneg out.snd out.fst hout1 hout2

/-- Claim C1 witness: a two-stock Rate model, `a(5) > b` at rate 5, advanced
one round from a nonnegative state. -/
theorem advance_rate_flows_nonneg_witness :
    (∀ f ∈ (Model.mk "W" [⟨"a", ⟨[.whole "5"], .num 0⟩, formulaInf, true⟩,
        ⟨"b", formulaZero, formulaInf, true⟩]
        [⟨0, 1, ⟨RateKind.rate, ⟨[.whole "5"], .num 0⟩⟩⟩] []).flows,
      f.rate.kind = RateKind.rate)
    ∧ State.advance (Model.mk "W" [⟨"a", ⟨[.whole "5"], .num 0⟩, formulaInf, true⟩,
        ⟨"b", formulaZero, formulaInf, true⟩]
        [⟨0, 1, ⟨RateKind.rate, ⟨[.whole "5"], .num 0⟩⟩⟩] [])
        [("a", JNum.num 5), ("b", JNum.num 0)]
        = .ok [("a", JNum.num 0), ("b", JNum.num 5)]
    ∧ (∀ p ∈ ([("a", JNum.num 0), ("b", JNum.num 5)] : StateMap),
        JNum.jlt p.snd (.num 0) = false) :=
  ⟨by decide, by decide,
   advance_rate_flows_nonneg
     (Model.mk "W" [⟨"a", ⟨[.whole "5"], .num 0⟩, formulaInf, true⟩,
        ⟨"b", formulaZero, formulaInf, true⟩]
        [⟨0, 1, ⟨RateKind.rate, ⟨[.whole "5"], .num 0⟩⟩⟩] [])
     [("a", JNum.num 5), ("b", JNum.num 0)] [("a", JNum.num 0), ("b", JNum.num 5)]
     (by decide) (by decide) (by decide) (by decide)⟩

/-! ## C2: finite maxima and the deferred commit -/

theorem jmin_num (a b : ℚ) : JNum.jmin (.num a) (.num b) = .num (min a b) := by
  by_cases h : a < b
  · simp [JNum.jmin, JNum.jlt, h, min_eq_left (le_of_lt h)]
  · simp [JNum.jmin, JNum.jlt, h, min_eq_right (not_lt.mp h)]

theorem jmax_zero_ninf : JNum.jmax (.num 0) .ninf = .num 0 := rfl

/-- The Rate clamp against a finite adjusted capacity always produces a
finite change bounded above by that capacity. -/
theorem rate_clamp_num_bound (sv cap : ℚ) (ev : JNum) :
    ∃ c : ℚ,
      JNum.jmin (.num cap)
        (JNum.jmax (.num 0)
          (if JNum.jge (JNum.jsub (.num sv) ev) (.num 0) then ev else .num sv))
      = .num c ∧ c ≤ cap := by
  cases ev with
  | nan =>
      rw [show (if JNum.jge (JNum.jsub (.num sv) .nan) (.num 0) = true then JNum.nan
          else JNum.num sv) = .num sv from rfl, jmax_zero_num, jmin_num]
      exact ⟨_, rfl, min_le_left _ _⟩
  | inf =>
      rw [show (if JNum.jge (JNum.jsub (.num sv) .inf) (.num 0) = true then JNum.inf
          else JNum.num sv) = .num sv from rfl, jmax_zero_num, jmin_num]
      exact ⟨_, rfl, min_le_left _ _⟩
  | ninf =>
      rw [show (if JNum.jge (JNum.jsub (.num sv) .ninf) (.num 0) = true then JNum.ninf
          else JNum.num sv) = .ninf from rfl, jmax_zero_ninf, jmin_num]
      exact ⟨_, rfl, min_le_left _ _⟩
  | num e =>
      rw [JNum.jsub_num]
      by_cases hcond : JNum.jge (JNum.num (sv - e)) (.num 0) = true
      · rw [if_pos hcond, jmax_zero_num, jmin_num]
        exact ⟨_, rfl, min_le_left _ _⟩
      · rw [if_neg hcond, jmax_zero_num, jmin_num]
        exact ⟨_, rfl, min_le_left _ _⟩

/-- `State.advanceStep` on a Rate flow whose destination maximum computes to
a finite number, written out explicitly. -/
theorem advanceStep_rate_finite_eq (m : Model) (f : Flow) (st : StateMap)
    (deferred : List (String × JNum)) (mv dv : ℚ)
    (hk : f.rate.kind = RateKind.rate)
    (hmax : (m.stockAt f.destination).maximum.compute st = .ok (.num mv))
    (hdv : jsGet st (m.stockAt f.destination).name = .num dv) :
    State.advanceStep m (st, deferred) f =
      (f.rate.formula.compute st).map (fun ev =>
        (aSet st (m.stockAt f.source).name
          (JNum.jsub (jsGet st (m.stockAt f.source).name)
            (if JNum.jgt (jsGet st (m.stockAt f.source).name) (.num 0)
             then JNum.jmin (JNum.jsub (.num mv) (.num dv))
                (JNum.jmax (.num 0)
                  (if JNum.jge (JNum.jsub (jsGet st (m.stockAt f.source).name) ev) (.num 0)
                   then ev else jsGet st (m.stockAt f.source).name))
             else .num 0)),
         deferred ++ [((m.stockAt f.destination).name,
            (if JNum.jgt (jsGet st (m.stockAt f.source).name) (.num 0)
             then JNum.jmin (JNum.jsub (.num mv) (.num dv))
                (JNum.jmax (.num 0)
                  (if JNum.jge (JNum.jsub (jsGet st (m.stockAt f.source).name) ev) (.num 0)
                   then ev else jsGet st (m.stockAt f.source).name))
             else .num 0))])) := by
  unfold State.advanceStep Flow.change RateSpec.calculate
  rw [hmax, hk, hdv]
  cases f.rate.formula.compute st with
  | error e => rfl
  | ok ev =>
      by_cases hgt : JNum.jgt (jsGet st (m.stockAt f.source).name) (.num 0) = true
      · simp only [except_bind_ok, if_pos hgt, Except.map]
        rw [if_pos (show JNum.num dv ≠ JNum.inf from fun h => JNum.noConfusion h)]
      · simp only [except_bind_ok, if_neg hgt, Except.map]

set_option maxHeartbeats 2000000 in
/-- Claim C2 counterexample: two Rate flows of 10 each feeding stock `c`,
which starts at 0 with maximum 10.  Each flow sees the same pre-round
destination value when computing its capacity, and the deferred additions
are committed without re-checking the maximum, so after one round `c` holds
20, strictly above the value 10 its maximum formula computes to. -/
theorem fan_in_overshoots_maximum :
    (parse "a(10) > c(0, 10) @ 10\nb(10) > c @ 10").map (fun m =>
      ((m.run 1).map (fun snaps => snaps.map (fun st => jsGet st "c")),
        (m.stockAt 1).name,
        (m.stockAt 1).maximum.compute [("a", JNum.num 0), ("c", JNum.num 20), ("b", JNum.num 0)]))
      = Except.ok (Except.ok [JNum.num 0, JNum.num 20], "c", Except.ok (JNum.num 10))
    ∧ JNum.jgt (JNum.num 20) (JNum.num 10) = true := by
  exact ⟨by decide, by decide⟩

/-- Claim C2 (amended): a finite-maximum bound does hold in the absence of
fan-in.  In a model with a single Rate flow whose destination's maximum
formula computes to the finite value `mv` on the current state, if the
destination currently holds `dv ≤ mv` and the source holds a finite value,
then after one `State.advance` round the destination holds a finite value
that is still at most `mv`.  As stated the claim is false: with two flows
into one destination each capacity check uses the same pre-round value and
the deferred commits can overshoot the maximum (see the counterexample). -/
theorem advance_single_rate_flow_respects_maximum
    (m : Model) (f : Flow) (st st' : StateMap) (mv dv sv : ℚ)
    (hf : m.flows = [f]) (hk : f.rate.kind = RateKind.rate)
    (hmax : (m.stockAt f.destination).maximum.compute st = .ok (.num mv))
    (hdv : jsGet st (m.stockAt f.destination).name = .num dv)
    (hsv : jsGet st (m.stockAt f.source).name = .num sv)
    (hle : dv ≤ mv)
    (hadv : State.advance m st = .ok st') :
    ∃ dv' : ℚ, jsGet st' (m.stockAt f.destination).name = .num dv' ∧ dv' ≤ mv := by
  unfold State.advance at hadv
  rw [hf, show ([f] : List Flow).reverse = [f] from rfl] at hadv
  simp only [List.foldlM] at hadv
  rw [advanceStep_rate_finite_eq m f st [] mv dv hk hmax hdv] at hadv
  cases hc : f.rate.formula.compute st with
  | error e =>
      rw [hc] at hadv
      simp only [Except.map, except_bind_error] at hadv
      exact Except.noConfusion hadv
  | ok ev =>
      rw [hc] at hadv
      simp only [Except.map, except_bind_ok, pure_bind] at hadv
      rw [hsv, JNum.jsub_num] at hadv
      obtain ⟨c, hcEq, hcLe⟩ : ∃ c : ℚ,
          (if JNum.jgt (.num sv) (.num 0)
           then JNum.jmin (.num (mv - dv)) (JNum.jmax (.num 0)
             (if JNum.jge (JNum.jsub (.num sv) ev) (.num 0) then ev else .num sv))
           else .num 0) = JNum.num c ∧ dv + c ≤ mv := by
        by_cases hgt : JNum.jgt (.num sv) (.num 0) = true
        · obtain ⟨c, hc1, hc2⟩ := rate_clamp_num_bound sv (mv - dv) ev
          exact ⟨c, by rw [if_pos hgt]; exact hc1, by linarith⟩
        · exact ⟨0, by rw [if_neg hgt], by linarith⟩
      rw [hcEq] at hadv
      simp only [List.nil_append, List.foldl_cons, List.foldl_nil] at hadv
      injection hadv with hadv
      subst hadv
      unfold State.commitStep
      by_cases hsd : (m.stockAt f.destination).name = (m.stockAt f.source).name
      · -- self-flow: the removal and the deferred addition cancel
        have hdvsv : dv = sv := by
          have h2 : JNum.num dv = JNum.num sv := by
            rw [← hdv, ← hsv, hsd]
          exact JNum.num.inj h2
        rw [hsd, jsGet_aSet_self, jsGet_aSet_self, JNum.jsub_num, JNum.jadd_num]
        exact ⟨sv - c + c, rfl, by linarith⟩
      · refine ⟨dv + c, ?_, by linarith⟩
        rw [jsGet_aSet_self, jsGet_aSet_ne st _ _ _ hsd, hdv, JNum.jadd_num]

/-- Claim C2 witness: the single flow `a(20) > b(0, 10) @ 5` advanced one
round from `a = 20, b = 0`, leaving `b = 5 ≤ 10`. -/
theorem advance_single_rate_flow_respects_maximum_witness :
    ∃ dv' : ℚ, jsGet [("a", JNum.num 15), ("b", JNum.num 5)]
      ((Model.mk "W2" [⟨"a", ⟨[.whole "20"], .num 0⟩, formulaInf, true⟩,
          ⟨"b", formulaZero, ⟨[.whole "10"], .num 0⟩, true⟩]
        [⟨0, 1, ⟨RateKind.rate, ⟨[.whole "5"], .num 0⟩⟩⟩] []).stockAt 1).name
        = .num dv' ∧ dv' ≤ 10 :=
  advance_single_rate_flow_respects_maximum
    (Model.mk "W2" [⟨"a", ⟨[.whole "20"], .num 0⟩, formulaInf, true⟩,
        ⟨"b", formulaZero, ⟨[.whole "10"], .num 0⟩, true⟩]
      [⟨0, 1, ⟨RateKind.rate, ⟨[.whole "5"], .num 0⟩⟩⟩] [])
    ⟨0, 1, ⟨RateKind.rate, ⟨[.whole "5"], .num 0⟩⟩⟩
    [("a", JNum.num 20), ("b", JNum.num 0)]
    [("a", JNum.num 15), ("b", JNum.num 5)]
    10 0 20 (by decide) (by decide) (by decide) (by decide) (by decide)
    (by decide) (by decide)

/-! ## C6: correctness of the cycle-finding peel -/

theorem aGet?_some_mem {α : Type} : ∀ (g : List (String × α)) (k : String) (v : α),
    aGet? g k = some v → (k, v) ∈ g
  | [], k, v, h => by simp [aGet?] at h
  | p :: rest, k, v, h => by
      by_cases hk : p.fst = k
      · rw [aGet?, if_pos hk] at h
        injection h with h
        exact List.mem_cons.mpr (Or.inl (by rw [← hk, ← h]))
      · rw [aGet?, if_neg hk] at h
        exact List.mem_cons_of_mem p (aGet?_some_mem rest k v h)

theorem aGet?_none_of_not_mem {α : Type} : ∀ (g : List (String × α)) (k : String),
    k ∉ g.map Prod.fst → aGet? g k = none
  | [], _, _ => rfl
  | p :: rest, k, h => by
      have h1 : p.fst ≠ k := by
        intro he
        exact h (by simp [he])
      rw [aGet?, if_neg h1]
      exact aGet?_none_of_not_mem rest k (fun hm => h (by simp [hm]))

theorem gGet_of_not_mem (g : Graph) (k : String) (h : k ∉ g.map Prod.fst) :
    gGet g k = [] := by
  simp [gGet, aGet?_none_of_not_mem g k h]

theorem mem_keys_of_gGet_ne (g : Graph) (k : String) (h : gGet g k ≠ []) :
    k ∈ g.map Prod.fst := by
  by_contra hk
  exact h (gGet_of_not_mem g k hk)

theorem gGet_mem_of_ne (g : Graph) (k : String) (h : gGet g k ≠ []) :
    (k, gGet g k) ∈ g := by
  cases hg : aGet? g k with
  | none => exact absurd (by simp [gGet, hg]) h
  | some v =>
      have hv : gGet g k = v := by simp [gGet, hg]
      rw [hv]
      exact aGet?_some_mem g k v hg

theorem gGet_aSet_self (g : Graph) (k : String) (v : List String) :
    gGet (aSet g k v) k = v := by
  simp [gGet, aGet?_aSet_self]

theorem gGet_aSet_ne (g : Graph) (k : String) (v : List String) (x : String)
    (hx : x ≠ k) : gGet (aSet g k v) x = gGet g x := by
  simp [gGet, aGet?_aSet_ne g k v x hx]

theorem aSet_map_fst {α : Type} : ∀ (g : List (String × α)) (k : String) (v : α),
    k ∈ g.map Prod.fst → (aSet g k v).map Prod.fst = g.map Prod.fst
  | [], k, _, h => by simp at h
  | p :: rest, k, v, h => by
      by_cases hk : p.fst = k
      · rw [aSet, if_pos hk]
        simp [hk]
      · rw [aSet, if_neg hk]
        have hmem : k ∈ rest.map Prod.fst := by
          rcases List.mem_map.mp h with ⟨q, hq, hqk⟩
          rcases List.mem_cons.mp hq with rfl | hq
          · exact absurd hqk hk
          · exact List.mem_map.mpr ⟨q, hq, hqk⟩
        simp [aSet_map_fst rest k v hmem]

theorem gGet_of_mem_nodup : ∀ (g : Graph) (k : String) (v : List String),
    (g.map Prod.fst).Nodup → (k, v) ∈ g → gGet g k = v
  | [], k, v, _, h => by simp at h
  | p :: rest, k, v, hnd, h => by
      rcases List.mem_cons.mp h with heq | h
      · rw [← heq]
        simp [gGet, aGet?]
      · have hk : p.fst ≠ k := by
          intro he
          have hmem : k ∈ rest.map Prod.fst := List.mem_map.mpr ⟨(k, v), h, rfl⟩
          rw [List.map_cons, List.nodup_cons] at hnd
          exact hnd.1 (he ▸ hmem)
        rw [gGet, aGet?, if_neg hk]
        rw [List.map_cons, List.nodup_cons] at hnd
        exact gGet_of_mem_nodup rest k v hnd.2 h

/-- Count of `x` in `y`'s inward list after erasing `n` once for each of
`n`'s edges into `y`: other nodes' counts are untouched, `n`'s count drops
by one per occurrence of `y` among the edges. -/
theorem eraseFold_count (n : String) : ∀ (edges : List String) (g : Graph) (y x : String),
    (gGet (edges.foldl (fun g e => aSet g e ((gGet g e).erase n)) g) y).count x
      = (gGet g y).count x - (if x = n then edges.count y else 0)
  | [], g, y, x => by simp [List.foldl]
  | e :: rest, g, y, x => by
      rw [List.foldl_cons, eraseFold_count n rest]
      by_cases hy : y = e
      · subst hy
        rw [gGet_aSet_self]
        by_cases hx : x = n
        · subst hx
          rw [List.count_erase_self, if_pos rfl, if_pos rfl, List.count_cons_self]
          omega
        · rw [List.count_erase_of_ne hx, if_neg hx, if_neg hx]
      · rw [gGet_aSet_ne _ _ _ _ hy]
        have hcnt : (e :: rest).count y = rest.count y := by
          simp [List.count_cons, hy]
        rw [hcnt]

theorem mem_flatten_of_gGet {g : Graph} {y a : String} (ha : a ∈ gGet g y) :
    a ∈ (g.map Prod.snd).flatten := by
  have hne : gGet g y ≠ [] := by
    intro h
    rw [h] at ha
    simp at ha
  exact List.mem_flatten.mpr
    ⟨gGet g y, List.mem_map.mpr ⟨(y, gGet g y), gGet_mem_of_ne g y hne, rfl⟩, ha⟩

/-- A checked edge-map pair has matching inward and outward counts for all
node names whatsoever. -/
theorem consistent_count {inG outG : Graph} (h : consistentB inG outG = true) :
    ∀ x y, (gGet inG y).count x = (gGet outG x).count y := by
  intro x y
  by_cases hx : x ∈ graphNodes inG outG
  · by_cases hy : y ∈ graphNodes inG outG
    · have h1 := List.all_eq_true.mp h x hx
      have h2 := List.all_eq_true.mp h1 y hy
      exact eq_of_beq h2
    · have hin : gGet inG y = [] :=
        gGet_of_not_mem _ _ (fun hm => hy (by simp [graphNodes, hm]))
      have hout : (gGet outG x).count y = 0 := by
        rw [List.count_eq_zero]
        intro hmem
        exact hy (by simp [graphNodes, mem_flatten_of_gGet hmem])
      rw [hin, hout]
      rfl
  · have hin : (gGet inG y).count x = 0 := by
      rw [List.count_eq_zero]
      intro hmem
      exact hx (by simp [graphNodes, mem_flatten_of_gGet hmem])
    have hout : gGet outG x = [] :=
      gGet_of_not_mem _ _ (fun hm => hx (by simp [graphNodes, hm]))
    rw [hin, hout]
    rfl

/-- One scan step either leaves the state alone or peels `n`. -/
theorem findCyclesStep_cases (st : FCState) (n : String) :
    findCyclesStep st n = st
    ∨ (gGet st.inG n = [] ∧ gGet st.cycles n ≠ [] ∧
       findCyclesStep st n =
         { cycles := aSet st.cycles n [],
           inG := (gGet st.cycles n).foldl
             (fun g edge => aSet g edge ((gGet g edge).erase n)) st.inG,
           deps := st.deps ++ [n],
           changed := true }) := by
  unfold findCyclesStep
  by_cases hc : ((gGet st.inG n).isEmpty && !(gGet st.cycles n).isEmpty) = true
  · right
    obtain ⟨h1, h2⟩ := Bool.and_eq_true_iff.mp hc
    refine ⟨?_, ?_, if_pos hc⟩
    · exact List.isEmpty_iff.mp h1
    · intro he
      rw [he] at h2
      simp at h2
  · left
    exact if_neg hc

/-- One scan step preserves the loop invariant. -/
theorem findCyclesStep_inv (outG : Graph) (st : FCState) (n : String)
    (h : FCInv outG st) : FCInv outG (findCyclesStep st n) := by
  rcases findCyclesStep_cases st n with heq | ⟨hin, hcy, heq⟩
  · rw [heq]
    exact h
  · rw [heq]
    obtain ⟨hkeys, hcyc, hcons, hord, hnd⟩ := h
    have hnmem : n ∉ st.deps := by
      intro hmem
      rw [hcyc n, if_pos hmem] at hcy
      exact hcy rfl
    have hedges : gGet st.cycles n = gGet outG n := by
      rw [hcyc n, if_neg hnmem]
    refine ⟨?_, ?_, ?_, ?_, ?_⟩
    · show (aSet st.cycles n []).map Prod.fst = outG.map Prod.fst
      rw [aSet_map_fst st.cycles n [] (mem_keys_of_gGet_ne _ _ hcy), hkeys]
    · intro x
      by_cases hx : x = n
      · subst hx
        show gGet (aSet st.cycles x []) x = _
        rw [gGet_aSet_self, if_pos (by simp)]
      · show gGet (aSet st.cycles n []) x = _
        rw [gGet_aSet_ne _ _ _ _ hx, hcyc x]
        have hiff : (x ∈ st.deps ++ [n]) ↔ (x ∈ st.deps) := by simp [hx]
        by_cases hxd : x ∈ st.deps
        · rw [if_pos hxd, if_pos (hiff.mpr hxd)]
        · rw [if_neg hxd, if_neg (fun hm => hxd (hiff.mp hm))]
    · intro x y
      show (gGet ((gGet st.cycles n).foldl
        (fun g edge => aSet g edge ((gGet g edge).erase n)) st.inG) y).count x = _
      rw [eraseFold_count n (gGet st.cycles n) st.inG y x, hedges, hcons x y]
      by_cases hx : x = n
      · subst hx
        rw [if_pos rfl, if_neg hnmem, if_pos (by simp)]
        omega
      · rw [if_neg hx]
        have hiff : (x ∈ st.deps ++ [n]) ↔ x ∈ st.deps := by simp [hx]
        by_cases hxd : x ∈ st.deps
        · rw [if_pos hxd, if_pos (hiff.mpr hxd)]
        · rw [if_neg hxd, if_neg (fun hm => hxd (hiff.mp hm))]
          omega
    · intro x y hy hydeps
      rcases List.mem_append.mp hydeps with hyd | hyn
      · obtain ⟨l1, l2, hsplit, hx1⟩ := hord x y hy hyd
        refine ⟨l1, l2 ++ [n], ?_, hx1⟩
        rw [hsplit]
        simp
      · have hyn : y = n := by simpa using hyn
        subst hyn
        have h0 : (if x ∈ st.deps then 0 else (gGet outG x).count y) = 0 := by
          rw [← hcons x y, hin]
          rfl
        have hxd : x ∈ st.deps := by
          by_contra hxd
          rw [if_neg hxd] at h0
          have hpos : 0 < (gGet outG x).count y := List.count_pos_iff.mpr hy
          omega
        exact ⟨st.deps, [], rfl, hxd⟩
    · simp only [List.nodup_append]
      exact ⟨hnd, List.nodup_singleton n, by simp [hnmem]⟩

/-- A full scan preserves the loop invariant. -/
theorem findCyclesPass_inv (outG : Graph) : ∀ (keys : List String) (st : FCState),
    FCInv outG st → FCInv outG (findCyclesPass keys st)
  | [], _, h => h
  | n :: rest, st, h =>
      findCyclesPass_inv outG rest (findCyclesStep st n) (findCyclesStep_inv outG st n h)

/-- The whole fuelled loop preserves the loop invariant. -/
theorem findCyclesGo_inv (outG : Graph) (keys : List String) :
    ∀ (fuel : ℕ) (st : FCState), FCInv outG st → FCInv outG (findCyclesGo keys fuel st)
  | 0, _, h => h
  | fuel + 1, st, h => by
      have h' : FCInv outG (findCyclesPass keys { st with changed := false }) :=
        findCyclesPass_inv outG keys _ h
      rw [findCyclesGo]
      by_cases hch : (findCyclesPass keys { st with changed := false }).changed = true
      · rw [if_pos hch]
        exact findCyclesGo_inv outG keys fuel _ h'
      · rw [if_neg hch]
        exact h'

/-- A scan that reports no change changed nothing. -/
theorem findCyclesPass_changed_false : ∀ (keys : List String) (st : FCState),
    (findCyclesPass keys st).changed = false →
    findCyclesPass keys st = st ∧ st.changed = false
  | [], _, h => ⟨rfl, h⟩
  | n :: rest, st, h => by
      have h' := findCyclesPass_changed_false rest (findCyclesStep st n) h
      show findCyclesPass rest (findCyclesStep st n) = st ∧ st.changed = false
      rcases findCyclesStep_cases st n with heq | ⟨_, _, heq⟩
      · rw [heq] at h' ⊢
        exact h'
      · rw [heq] at h'
        exact Bool.noConfusion h'.2

/-- Emptying a nonempty entry strictly decreases the number of nonempty
entries. -/
theorem nonemptyCount_aSet_nil : ∀ (g : Graph) (n : String), gGet g n ≠ [] →
    nonemptyCount (aSet g n []) < nonemptyCount g
  | [], n, h => absurd rfl h
  | p :: rest, n, h => by
      by_cases hk : p.fst = n
      · have hsnd : p.snd ≠ [] := by
          rw [gGet, aGet?, if_pos hk] at h
          simpa using h
        have hpe : p.snd.isEmpty = false := by
          cases hp : p.snd with
          | nil => exact absurd hp hsnd
          | cons a l => rfl
        show nonemptyCount (if p.fst = n then (n, []) :: rest else p :: aSet rest n []) < _
        rw [if_pos hk]
        simp [nonemptyCount, List.filter_cons, hpe]
      · have h' : gGet rest n ≠ [] := by
          rw [gGet, aGet?, if_neg hk] at h
          exact h
        have ih := nonemptyCount_aSet_nil rest n h'
        show nonemptyCount (if p.fst = n then (n, []) :: rest else p :: aSet rest n []) < _
        rw [if_neg hk]
        simp only [nonemptyCount, List.filter_cons] at ih ⊢
        by_cases hp : (!p.snd.isEmpty) = true
        · rw [if_pos hp, if_pos hp]
          simpa using Nat.succ_lt_succ ih
        · rw [if_neg hp, if_neg hp]
          exact ih

/-- One scan step never increases the number of nonempty entries, and a step
that sets the changed flag either found it set or strictly decreased the
count. -/
theorem findCyclesStep_measure (st : FCState) (n : String) :
    nonemptyCount (findCyclesStep st n).cycles ≤ nonemptyCount st.cycles
    ∧ ((findCyclesStep st n).changed = true → st.changed = true ∨
        nonemptyCount (findCyclesStep st n).cycles < nonemptyCount st.cycles) := by
  rcases findCyclesStep_cases st n with heq | ⟨_, hcy, heq⟩
  · rw [heq]
    exact ⟨le_refl _, fun h => Or.inl h⟩
  · rw [heq]
    have hlt : nonemptyCount (aSet st.cycles n []) < nonemptyCount st.cycles :=
      nonemptyCount_aSet_nil st.cycles n hcy
    exact ⟨le_of_lt hlt, fun _ => Or.inr hlt⟩

/-- A full scan never increases the count, and a scan that reports a change
either started with the flag set or strictly decreased the count. -/
theorem findCyclesPass_measure : ∀ (keys : List String) (st : FCState),
    nonemptyCount (findCyclesPass keys st).cycles ≤ nonemptyCount st.cycles
    ∧ ((findCyclesPass keys st).changed = true → st.changed = true ∨
        nonemptyCount (findCyclesPass keys st).cycles < nonemptyCount st.cycles)
  | [], _ => ⟨le_refl _, fun h => Or.inl h⟩
  | n :: rest, st => by
      have hstep := findCyclesStep_measure st n
      have ih := findCyclesPass_measure rest (findCyclesStep st n)
      constructor
      · exact le_trans ih.1 hstep.1
      · intro hch
        rcases ih.2 hch with hstch | hlt
        · rcases hstep.2 hstch with h1 | h2
          · exact Or.inl h1
          · exact Or.inr (lt_of_le_of_lt ih.1 h2)
        · exact Or.inr (lt_of_lt_of_le hlt hstep.1)

/-- With enough fuel the loop reaches a fixpoint of the scan. -/
theorem findCyclesGo_fix (keys : List String) : ∀ (fuel : ℕ) (st : FCState),
    nonemptyCount st.cycles < fuel →
    findCyclesPass keys (findCyclesGo keys fuel st) = findCyclesGo keys fuel st
  | 0, _, h => absurd h (by omega)
  | fuel + 1, st, h => by
      rw [findCyclesGo]
      by_cases hch : (findCyclesPass keys { st with changed := false }).changed = true
      · rw [if_pos hch]
        apply findCyclesGo_fix keys fuel
        have hm := (findCyclesPass_measure keys { st with changed := false }).2 hch
        rcases hm with hfalse | hlt
        · exact Bool.noConfusion hfalse
        · rw [show ({ st with changed := false } : FCState).cycles = st.cycles from rfl] at hlt
          omega
      · rw [if_neg hch]
        have hch' : (findCyclesPass keys { st with changed := false }).changed = false := by
          revert hch
          cases (findCyclesPass keys { st with changed := false }).changed <;> simp
        have h' := findCyclesPass_changed_false keys _ hch'
        rw [h'.1]
        exact h'.1

/-- The peel step when its condition holds. -/
theorem findCyclesStep_of_cond (st : FCState) (n : String)
    (hin : gGet st.inG n = []) (hcy : gGet st.cycles n ≠ []) :
    findCyclesStep st n =
      { cycles := aSet st.cycles n [],
        inG := (gGet st.cycles n).foldl
          (fun g edge => aSet g edge ((gGet g edge).erase n)) st.inG,
        deps := st.deps ++ [n],
        changed := true } := by
  have hc : ((gGet st.inG n).isEmpty && !(gGet st.cycles n).isEmpty) = true := by
    cases hgl : gGet st.cycles n with
    | nil => exact absurd hgl hcy
    | cons a l => simp [hin, hgl]
  unfold findCyclesStep
  rw [if_pos hc]

/-- A scan never shortens the dependency list. -/
theorem findCyclesPass_deps_le : ∀ (keys : List String) (st : FCState),
    st.deps.length ≤ (findCyclesPass keys st).deps.length
  | [], _ => le_refl _
  | n :: rest, st => by
      have hstep : st.deps.length ≤ (findCyclesStep st n).deps.length := by
        rcases findCyclesStep_cases st n with heq | ⟨_, _, heq⟩
        · rw [heq]
        · rw [heq]
          simp
      exact le_trans hstep (findCyclesPass_deps_le rest (findCyclesStep st n))

/-- At a fixpoint of the scan, no node of the key list satisfies the peel
condition. -/
theorem findCyclesPass_fix_nostep : ∀ (keys : List String) (st : FCState),
    findCyclesPass keys st = st → ∀ n ∈ keys,
    ¬(gGet st.inG n = [] ∧ gGet st.cycles n ≠ [])
  | [], _, _, n, hn => by simp at hn
  | k :: rest, st, hfix, n, hn => by
      have hfix' : findCyclesPass rest (findCyclesStep st k) = st := hfix
      have hstep : findCyclesStep st k = st := by
        rcases findCyclesStep_cases st k with heq | ⟨_, _, heq⟩
        · exact heq
        · exfalso
          have h1 : (findCyclesStep st k).deps.length = st.deps.length + 1 := by
            rw [heq]
            simp
          have h2 := findCyclesPass_deps_le rest (findCyclesStep st k)
          rw [hfix'] at h2
          omega
      rcases List.mem_cons.mp hn with rfl | hn
      · rintro ⟨hin, hcy⟩
        rw [findCyclesStep_of_cond st n hin hcy] at hstep
        have hlen := congrArg (fun s => s.deps.length) hstep
        simp only [List.length_append, List.length_singleton] at hlen
        omega
      · rw [hstep] at hfix'
        exact findCyclesPass_fix_nostep rest st hfix' n hn

theorem headD_mem {α : Type} (l : List α) (d : α) (h : l ≠ []) : l.headD d ∈ l := by
  cases l with
  | nil => exact absurd rfl h
  | cons a rest => exact List.mem_cons_self a rest

theorem any_nonempty_of_gGet (g : Graph) (x : String) (h : gGet g x ≠ []) :
    g.any (fun p => !p.snd.isEmpty) = true := by
  rw [List.any_eq_true]
  refine ⟨(x, gGet g x), gGet_mem_of_ne g x h, ?_⟩
  cases hgl : gGet g x with
  | nil => exact absurd hgl h
  | cons a l => rfl

/-- At a fixpoint of the scan, walking inward lists backwards from an
unpeeled node with outward edges stays on unpeeled nodes with outward edges,
and each step is an outward edge back to the previous node. -/
theorem chain_invariant (outG : Graph) (st : FCState)
    (hfix : findCyclesPass (outG.map Prod.fst) st = st)
    (hinv : FCInv outG st)
    (x0 : String) (h0 : x0 ∉ st.deps) (hout0 : gGet outG x0 ≠ []) :
    ∀ n : ℕ,
      (predChain st.inG x0 n ∉ st.deps ∧ gGet outG (predChain st.inG x0 n) ≠ [])
      ∧ predChain st.inG x0 n ∈ gGet outG (predChain st.inG x0 (n + 1)) := by
  obtain ⟨hkeys, hcyc, hcons, hord, hnd⟩ := hinv
  have hstep : ∀ z, z ∉ st.deps → gGet outG z ≠ [] →
      ((gGet st.inG z).headD "" ∉ st.deps ∧ gGet outG ((gGet st.inG z).headD "") ≠ [])
      ∧ z ∈ gGet outG ((gGet st.inG z).headD "") := by
    intro z hz hzout
    have hzkey : z ∈ outG.map Prod.fst := mem_keys_of_gGet_ne outG z hzout
    have hcyz : gGet st.cycles z ≠ [] := by
      rw [hcyc z, if_neg hz]
      exact hzout
    have hinz : gGet st.inG z ≠ [] := by
      intro hin
      exact findCyclesPass_fix_nostep _ st hfix z hzkey ⟨hin, hcyz⟩
    have hw : (gGet st.inG z).headD "" ∈ gGet st.inG z := headD_mem _ _ hinz
    have hcount : 0 < (gGet st.inG z).count ((gGet st.inG z).headD "") :=
      List.count_pos_iff.mpr hw
    rw [hcons ((gGet st.inG z).headD "") z] at hcount
    by_cases hwd : (gGet st.inG z).headD "" ∈ st.deps
    · rw [if_pos hwd] at hcount
      omega
    · rw [if_neg hwd] at hcount
      have hzmem : z ∈ gGet outG ((gGet st.inG z).headD "") := List.count_pos_iff.mp hcount
      refine ⟨⟨hwd, ?_⟩, hzmem⟩
      intro he
      rw [he] at hzmem
      simp at hzmem
  intro n
  induction n with
  | zero => exact ⟨⟨h0, hout0⟩, (hstep x0 h0 hout0).2⟩
  | succ n ih =>
      have hP1 := (hstep (predChain st.inG x0 n) ih.1.1 ih.1.2).1
      exact ⟨hP1, (hstep (predChain st.inG x0 (n + 1)) hP1.1 hP1.2).2⟩

/-- A backward chain of outward edges composes into a transitive path. -/
theorem chain_transGen (outG : Graph) (c : ℕ → String)
    (hedge : ∀ n, c n ∈ gGet outG (c (n + 1))) :
    ∀ i j, i < j → Relation.TransGen (outEdge outG) (c j) (c i) := by
  intro i j hij
  induction j with
  | zero => omega
  | succ j ih =>
      by_cases hj : i = j
      · subst hj
        exact Relation.TransGen.single (hedge i)
      · have hij' : i < j := by omega
        exact Relation.TransGen.head (hedge j) (ih hij')

/-- Claim C6 (amended): for edge maps with duplicate-free outward keys and
matching inward/outward counts (the shape `Model.validateInitialCycles`
builds), `findCycles` is a correct Kahn-style peel: a self-loop is always
reported as a cycle; an acyclic graph is never reported cyclic; every edge
whose target appears in the returned initialization order has that target
preceding its source there; and when no cycle is reported, a node absent
from the order has no outward edges at all.  As stated the claim is false:
the order only lists nodes that themselves have outward edges, so an edge's
target may be missing from it entirely (see the counterexample), and then
"every stock's outward-edge targets precede it in the returned order"
fails. -/
theorem findCycles_kahn_correct (inG outG : Graph)
    (hkeys : (outG.map Prod.fst).Nodup)
    (hcons : consistentB inG outG = true) :
    (∀ x, x ∈ gGet outG x → (findCycles inG outG).fst.hasCycle = true)
    ∧ ((¬ ∃ z, Relation.TransGen (outEdge outG) z z) →
        (findCycles inG outG).fst.hasCycle = false)
    ∧ (∀ x y, y ∈ gGet outG x → y ∈ (findCycles inG outG).fst.initialPath →
        ∃ l1 l2, (findCycles inG outG).fst.initialPath = l1 ++ l2 ∧ y ∈ l1 ∧ x ∈ l2)
    ∧ ((findCycles inG outG).fst.hasCycle = false →
        ∀ x, x ∈ (findCycles inG outG).fst.initialPath ∨ gGet outG x = []) := by
  obtain ⟨st, hst⟩ : ∃ st, findCyclesGo (outG.map Prod.fst) (nonemptyCount outG + 1)
      (⟨outG, inG, [], true⟩ : FCState) = st := ⟨_, rfl⟩
  have hfix : findCyclesPass (outG.map Prod.fst) st = st := by
    rw [← hst]
    exact findCyclesGo_fix _ _ _
      (by rw [show ((⟨outG, inG, [], true⟩ : FCState)).cycles = outG from rfl]; omega)
  have hinv : FCInv outG st := by
    rw [← hst]
    apply findCyclesGo_inv
    refine ⟨rfl, ?_, ?_, ?_, List.nodup_nil⟩
    · intro x
      rw [if_neg (by simp)]
    · intro x y
      rw [if_neg (by simp)]
      exact consistent_count hcons x y
    · intro x y _ hyd
      simp at hyd
  have hHC : (findCycles inG outG).fst.hasCycle = st.cycles.any (fun p => !p.snd.isEmpty) := by
    rw [← hst]
    rfl
  have hIP : (findCycles inG outG).fst.initialPath = st.deps.reverse := by
    rw [← hst]
    rfl
  obtain ⟨hkeysC, hcyc, hcons', hord, hnd⟩ :
      st.cycles.map Prod.fst = outG.map Prod.fst
      ∧ (∀ x, gGet st.cycles x = if x ∈ st.deps then [] else gGet outG x)
      ∧ (∀ x y, (gGet st.inG y).count x = if x ∈ st.deps then 0 else (gGet outG x).count y)
      ∧ (∀ x y, y ∈ gGet outG x → y ∈ st.deps → ∃ l1 l2, st.deps = l1 ++ y :: l2 ∧ x ∈ l1)
      ∧ st.deps.Nodup := hinv
  refine ⟨?_, ?_, ?_, ?_⟩
  · -- self-loops are always flagged
    intro x hx
    have hxout : gGet outG x ≠ [] := by
      intro he
      rw [he] at hx
      simp at hx
    have hxd : x ∉ st.deps := by
      intro hxd
      obtain ⟨l1, l2, hsplit, hx1⟩ := hord x x hx hxd
      rw [hsplit] at hnd
      exact (List.nodup_append.mp hnd).2.2 hx1 (List.mem_cons_self x l2)
    have hcyx : gGet st.cycles x ≠ [] := by
      rw [hcyc x, if_neg hxd]
      exact hxout
    rw [hHC]
    exact any_nonempty_of_gGet st.cycles x hcyx
  · -- acyclic graphs are not flagged
    intro hacyc
    by_contra hne
    have hHCtrue : st.cycles.any (fun p => !p.snd.isEmpty) = true := by
      rw [hHC] at hne
      revert hne
      cases st.cycles.any (fun p => !p.snd.isEmpty) <;> simp
    rw [List.any_eq_true] at hHCtrue
    obtain ⟨p, hpmem, hpne⟩ := hHCtrue
    have hkeysSt : (st.cycles.map Prod.fst).Nodup := by
      rw [hkeysC]
      exact hkeys
    have hget : gGet st.cycles p.fst = p.snd :=
      gGet_of_mem_nodup st.cycles p.fst p.snd hkeysSt hpmem
    have hpsne : p.snd ≠ [] := by
      intro he
      rw [he] at hpne
      simp at hpne
    have hx0d : p.fst ∉ st.deps := by
      intro hd
      rw [hcyc p.fst, if_pos hd] at hget
      exact hpsne hget.symm
    have hx0out : gGet outG p.fst ≠ [] := by
      rw [hcyc p.fst, if_neg hx0d] at hget
      rw [hget]
      exact hpsne
    have hchain := chain_invariant outG st hfix ⟨hkeysC, hcyc, hcons', hord, hnd⟩
      p.fst hx0d hx0out
    have hmapsto : ∀ a ∈ (Finset.univ :
        Finset (Fin ((outG.map Prod.fst).toFinset.card + 1))),
        (fun a : Fin ((outG.map Prod.fst).toFinset.card + 1) =>
          predChain st.inG p.fst a.val) a ∈ (outG.map Prod.fst).toFinset :=
      fun a _ => List.mem_toFinset.mpr
        (mem_keys_of_gGet_ne outG (predChain st.inG p.fst a.val) (hchain a.val).1.2)
    have hcard : (outG.map Prod.fst).toFinset.card <
        (Finset.univ :
          Finset (Fin ((outG.map Prod.fst).toFinset.card + 1))).card := by
      simp
    obtain ⟨i, _, j, _, hij, hcij⟩ :=
      Finset.exists_ne_map_eq_of_card_lt_of_maps_to hcard hmapsto
    have hedge : ∀ n, predChain st.inG p.fst n
        ∈ gGet outG (predChain st.inG p.fst (n + 1)) := fun n => (hchain n).2
    rcases Nat.lt_or_ge i.val j.val with hlt | hge
    · have hT := chain_transGen outG (predChain st.inG p.fst) hedge i.val j.val hlt
      rw [← hcij] at hT
      exact hacyc ⟨predChain st.inG p.fst i.val, hT⟩
    · have hlt' : j.val < i.val := by
        rcases Nat.lt_or_ge j.val i.val with h | h
        · exact h
        · exact absurd (Fin.ext (le_antisymm h hge)) hij
      have hT := chain_transGen outG (predChain st.inG p.fst) hedge j.val i.val hlt'
      rw [hcij] at hT
      exact hacyc ⟨predChain st.inG p.fst j.val, hT⟩
  · -- present targets precede their sources
    intro x y hy hyp
    rw [hIP] at hyp ⊢
    have hyd : y ∈ st.deps := List.mem_reverse.mp hyp
    obtain ⟨l1, l2, hsplit, hx1⟩ := hord x y hy hyd
    refine ⟨l2.reverse ++ [y], l1.reverse, ?_, by simp, by simp [hx1]⟩
    rw [hsplit, List.reverse_append, List.reverse_cons]
  · -- with no cycle, a node outside the order has no outward edges
    intro hHCfalse x
    by_cases hxout : gGet outG x = []
    · exact Or.inr hxout
    · left
      rw [hIP, List.mem_reverse]
      by_contra hxd
      have hcyx : gGet st.cycles x ≠ [] := by
        rw [hcyc x, if_neg hxd]
        exact hxout
      rw [hHC, any_nonempty_of_gGet st.cycles x hcyx] at hHCfalse
      exact Bool.noConfusion hHCfalse

/-- Claim C6 counterexample: in the acyclic graph with the single edge
`p → q`, built exactly as `validateInitialCycles` would (inward lists
mirroring outward lists), `findCycles` reports no cycle and returns the
order `["p"]`: the edge target `q` does not appear in the order at all, so
`p`'s outward-edge target does not precede `p` there. -/
theorem findCycles_order_property_fails :
    (findCycles [("p", []), ("q", ["p"])] [("p", ["q"]), ("q", [])]).fst
      = ⟨false, [("p", []), ("q", [])], ["p"]⟩
    ∧ "q" ∈ gGet [("p", ["q"]), ("q", [])] "p"
    ∧ "p" ∈ (findCycles [("p", []), ("q", ["p"])] [("p", ["q"]), ("q", [])]).fst.initialPath
    ∧ "q" ∉ (findCycles [("p", []), ("q", ["p"])] [("p", ["q"]), ("q", [])]).fst.initialPath :=
  ⟨by decide, by decide, by decide, by decide⟩

/-- Claim C6 witness: the amended correctness statement instantiated on the
two-node edge maps of the counterexample graph. -/
theorem findCycles_kahn_correct_witness :
    (∀ x, x ∈ gGet [("p", ["q"]), ("q", [])] x →
      (findCycles [("p", []), ("q", ["p"])] [("p", ["q"]), ("q", [])]).fst.hasCycle = true)
    ∧ ((¬ ∃ z, Relation.TransGen (outEdge [("p", ["q"]), ("q", [])]) z z) →
        (findCycles [("p", []), ("q", ["p"])] [("p", ["q"]), ("q", [])]).fst.hasCycle = false)
    ∧ (∀ x y, y ∈ gGet [("p", ["q"]), ("q", [])] x →
        y ∈ (findCycles [("p", []), ("q", ["p"])] [("p", ["q"]), ("q", [])]).fst.initialPath →
        ∃ l1 l2, (findCycles [("p", []), ("q", ["p"])] [("p", ["q"]), ("q", [])]).fst.initialPath
          = l1 ++ l2 ∧ y ∈ l1 ∧ x ∈ l2)
    ∧ ((findCycles [("p", []), ("q", ["p"])] [("p", ["q"]), ("q", [])]).fst.hasCycle = false →
        ∀ x, x ∈ (findCycles [("p", []), ("q", ["p"])] [("p", ["q"]), ("q", [])]).fst.initialPath
          ∨ gGet [("p", ["q"]), ("q", [])] x = []) :=
  findCycles_kahn_correct [("p", []), ("q", ["p"])] [("p", ["q"]), ("q", [])]
    (by decide) (by decide)

end Systems